import Mathlib

/-
Verification of the xnmt search-strategy core (src/xnmt/search_strategy.py)
against its natural-language specification.

The embedding is shallow: the Python classes `HypScore`, `GreedySearch`,
`BeamSearch` and `SamplingSearch` become Lean structures and functions.
Floating-point scores are modelled by an arbitrary linearly ordered ring `K`
(witnesses instantiate `K := ℤ`).  Code that can raise (index errors on
forced sequences, `IndexError` on empty hypothesis lists, numpy shape
errors) is modelled with `Option` / `Except`; the `assert` statement at the
top of `BeamSearch.generate_output` is modelled as a distinguished
`DecodeError.assertionError`.
-/

namespace Xnmt

/-- Token / word identifiers, as in `xnmt.vocab`. -/
abbrev Word := Nat

namespace Vocab

/-- `Vocab.SS = 0` (start of sequence), from src/xnmt/vocab.py. -/
def SS : Word := 0

/-- `Vocab.ES = 1` (end of sequence), from src/xnmt/vocab.py. -/
def ES : Word := 1

end Vocab

/-- The `SearchOutput` namedtuple of search_strategy.py.  Being a Python
namedtuple it is untyped; the three strategies fill its slots with
different shapes, so every field type is a parameter. -/
structure SearchOutput (ω β γ δ ε ζ : Type) where
  word_ids : ω
  attentions : β
  score : γ
  logsoftmaxes : δ
  state : ε
  mask : ζ
deriving DecidableEq

/-- The `HypScore` record: normalized plus unnormalized (raw) score. -/
structure HypScore (β : Type) where
  normalized : β
  unnormalized : β
deriving DecidableEq

/-- Embeds `HypScore.__init__(self, normalized, unnormalized=None)`:
`self.unnormalized = unnormalized or normalized`.  Python's `or` falls back
to `normalized` when the supplied value is falsy, i.e. `None` (here `none`)
or a zero number (here `some 0`). -/
def HypScore.make [Zero K] [DecidableEq K] (normalized : K)
    (unnormalized : Option K) : HypScore K :=
  { normalized := normalized
    unnormalized :=
      match unnormalized with
      | none => normalized
      | some u => if u = 0 then normalized else u }

/-! ### List helpers modelling the numpy / Python library operations used -/

/-- `np.argmax` over a single distribution: index of the first occurrence of
the maximal value.  `np.argmax` raises on an empty array, hence `Option`. -/
def argmaxAux [LinearOrder K] : List K → Nat → Nat → K → Nat
  | [], _, best, _ => best
  | x :: xs, i, best, bv =>
    if bv < x then argmaxAux xs (i + 1) i x else argmaxAux xs (i + 1) best bv

/-- First-maximum index of a list, `none` on `[]` (numpy raises there). -/
def argmaxQ [LinearOrder K] : List K → Option Nat
  | [] => none
  | x :: xs => some (argmaxAux xs 1 0 x)

/-- Option-valued map over a list, propagating the first failure: the
shape of every Python list comprehension here that can raise. -/
def mapOpt (f : γ → Option δ) : List γ → Option (List δ)
  | [] => some []
  | x :: xs => do
    let y ← f x
    let ys ← mapOpt f xs
    some (y :: ys)

/-- `dy.pick_batch(logsoftmax, word_id)`: pick entry `word_id[i]` from the
`i`-th distribution of the batch.  Fails (dynet raises) on a batch-size
mismatch or an out-of-range index. -/
def pickBatch (dists : List (List K)) (ws : List Word) : Option (List K) :=
  if dists.length = ws.length then
    mapOpt (fun p => p.1.get? p.2) (dists.zip ws)
  else none

/-- One step of a stable insertion sort in descending key order: `x` is
placed after every element whose key is at least `key x`, which is the
tie behaviour of Python's stable `sorted(..., reverse=True)`. -/
def insDesc [LinearOrder K] (key : β → K) (x : β) : List β → List β
  | [] => [x]
  | y :: ys => if key x ≤ key y then y :: insDesc key x ys else x :: y :: ys

/-- Stable sort in descending key order, modelling
`sorted(l, key=key, reverse=True)`. -/
def sortDesc [LinearOrder K] (key : β → K) (l : List β) : List β :=
  l.foldl (fun acc x => insDesc key x acc) []

/-- `np.argpartition(score, max(-len(score), -beam_size))[-beam_size:]`:
the indices of the `k` largest entries of `score` (all of them when
`k ≥ len(score)`).  numpy leaves the order of the selected indices and the
tie-break among equal values unspecified; we return them in descending
value order, a particular deterministic instance of that contract. -/
def topWords [LinearOrder K] [Zero K] (score : List K) (k : Nat) : List Nat :=
  (sortDesc (fun i => score.getD i 0) (List.range score.length)).take k

/-- `np.stack(cols, axis=1)`: step-major columns to batch-major rows.
numpy raises on an empty list or ragged column lengths. -/
def stackCols (cols : List (List Word)) : Option (List (List Word)) :=
  match cols with
  | [] => none
  | c :: _ =>
    if cols.all (fun x => x.length = c.length) then
      some ((List.range c.length).map (fun i => cols.map (fun col => col.getD i 0)))
    else none

/-- `np.sum(rows, axis=0)` / `dy.esum(rows)`: elementwise sum over the
step axis; fails on an empty or ragged list of batch vectors. -/
def sumAxis0 [AddCommMonoid K] (rows : List (List K)) : Option (List K) :=
  match rows with
  | [] => none
  | r :: _ =>
    if rows.all (fun x => x.length = r.length) then
      some (rows.foldl (fun acc x => List.zipWith (· + ·) acc x)
        (List.replicate r.length 0))
    else none

/-! ### BeamSearch (search_strategy.py lines 105-190)

Beam search is unbatched: the scoring model returns one distribution per
step (`logsoftmax.npvalue().transpose()` of shape `(vocab,)`). -/

/-- The value returned by `translator.output_one_step` on the unbatched
(beam search) path. -/
structure TranslatorOutput (K σ α : Type) where
  state : σ
  logsoftmax : List K
  attention : α
deriving DecidableEq

/-- The translator collaborator, restricted to the single method beam
search uses. -/
structure Translator (K σ α : Type) where
  output_one_step : Option Word → σ → TranslatorOutput K σ α

/-- The `Hypothesis` namedtuple: the root is
`Hypothesis(0, None, None, None, 0)`, every other node carries the score,
the step output that produced it, its parent, the chosen word and the
unnormalized running score. -/
inductive Hyp (K σ α : Type) where
  | root
  | node (score : K) (output : TranslatorOutput K σ α) (parent : Hyp K σ α)
      (word : Word) (unnormalized : K)
deriving DecidableEq

/-- `hyp.score` (0 at the root). -/
def Hyp.score [Zero K] : Hyp K σ α → K
  | .root => 0
  | .node s _ _ _ _ => s

/-- `hyp.unnormalized` (0 at the root). -/
def Hyp.unnormalized [Zero K] : Hyp K σ α → K
  | .root => 0
  | .node _ _ _ _ u => u

/-- `hyp.word` (`None` at the root). -/
def Hyp.word : Hyp K σ α → Option Word
  | .root => none
  | .node _ _ _ w _ => some w

/-- `hyp.output.state`; `none` models the `AttributeError` of
`None.state` at the root. -/
def Hyp.stateOpt : Hyp K σ α → Option σ
  | .root => none
  | .node _ o _ _ _ => some o.state

/-- Number of generation steps leading to this hypothesis. -/
def Hyp.depth : Hyp K σ α → Nat
  | .root => 0
  | .node _ _ p _ _ => p.depth + 1

/-- The words from leaf to root, as collected by the backtracing loop
(lines 176-186) before `reversed` is applied. -/
def Hyp.backWords : Hyp K σ α → List Word
  | .root => []
  | .node _ _ p w _ => w :: p.backWords

/-- The attentions from leaf to root collected by the backtracing loop. -/
def Hyp.backAttns : Hyp K σ α → List α
  | .root => []
  | .node _ o p _ _ => o.attention :: p.backAttns

/-- The length-normalization collaborator (`xnmt.length_normalization`).
Its two operations are `normalize_partial(score, logprob, length)`
(field `normalize_one` here) and `normalize_completed(hyps, src_length)`. -/
structure LenNorm (K σ α : Type) where
  normalize_one : K → K → Nat → K
  normalize_completed : List (Hyp K σ α) → Option Nat → List K

/-- Lines 148-157: candidate words for one hypothesis and the new
hypotheses they produce.  Under free decoding the candidates are the
`beam_size` best words; under forced decoding exactly
`forced_trg_ids[length]` (an index error when the forced sequence is too
short).  `score.get?` models the indexing `score[cur_word]`. -/
def hypChildren [LinearOrderedRing K] (ln : LenNorm K σ α) (beamSize : Nat)
    (forced : Option (List Word)) (length : Nat)
    (out : TranslatorOutput K σ α) (hyp : Hyp K σ α) :
    Option (List (Hyp K σ α)) := do
  let score := out.logsoftmax
  let top_words ←
    match forced with
    | none => some (topWords score beamSize)
    | some f => (f.get? length).map (fun w => [w])
  mapOpt (fun cur_word => do
    let sw ← score.get? cur_word
    some (Hyp.node (ln.normalize_one hyp.score sw (length + 1)) out hyp
      cur_word (sw + hyp.unnormalized))) top_words

/-- Line 143: the previous word of `hyp` at this step ends the sequence
(`prev_word == Vocab.ES`; at step 0 the previous word is `None`). -/
def beamDone (length : Nat) (hyp : Hyp K σ α) : Bool :=
  decide ((if length = 0 then none else hyp.word) = some Vocab.ES)

/-- Lines 137-146 for one non-finished hypothesis: resolve the previous
word and state (the root has no step output, so touching its state at a
later step is the modelled `AttributeError`), call the translator once and
build the candidate hypotheses. -/
def expandOne [LinearOrderedRing K] (tr : Translator K σ α)
    (ln : LenNorm K σ α) (beamSize : Nat) (forced : Option (List Word))
    (init : σ) (length : Nat) (hyp : Hyp K σ α) : Option (List (Hyp K σ α)) := do
  let prev_word : Option Word := if length = 0 then none else hyp.word
  let prev_state ← if length = 0 then some init else hyp.stateOpt
  hypChildren ln beamSize forced length (tr.output_one_step prev_word prev_state) hyp

/-- Lines 135-157: one pass over the active hypotheses.  A hypothesis
whose previous word is `</s>` is appended to the completed list without a
translator call; every other one is expanded through
`translator.output_one_step`.  Returns the updated completed list and the
accumulated `new_set`. -/
def beamExpand [LinearOrderedRing K] (tr : Translator K σ α)
    (ln : LenNorm K σ α) (beamSize : Nat) (forced : Option (List Word))
    (init : σ) (length : Nat) :
    List (Hyp K σ α) → List (Hyp K σ α) → List (Hyp K σ α) →
    Option (List (Hyp K σ α) × List (Hyp K σ α))
  | [], completed, newSet => some (completed, newSet)
  | hyp :: rest, completed, newSet =>
    if beamDone length hyp then
      beamExpand tr ln beamSize forced init length rest (completed ++ [hyp]) newSet
    else do
      let kids ← expandOne tr ln beamSize forced init length hyp
      beamExpand tr ln beamSize forced init length rest completed (newSet ++ kids)

/-- Lines 131-159: the `for length in range(max_len)` loop.  The fuel is
the number of remaining iterations; the loop breaks as soon as the
completed list has reached `beam_size` entries, and each iteration keeps
the `beam_size` highest-scoring new hypotheses as the next frontier. -/
def beamLoop [LinearOrderedRing K] (tr : Translator K σ α)
    (ln : LenNorm K σ α) (beamSize : Nat) (forced : Option (List Word))
    (init : σ) :
    Nat → Nat → List (Hyp K σ α) → List (Hyp K σ α) →
    Option (List (Hyp K σ α) × List (Hyp K σ α))
  | 0, _, active, completed => some (completed, active)
  | fuel + 1, length, active, completed =>
    if beamSize ≤ completed.length then some (completed, active)
    else do
      let (completed', newSet) ←
        beamExpand tr ln beamSize forced init length active completed []
      let active' := (sortDesc Hyp.score newSet).take beamSize
      beamLoop tr ln beamSize forced init fuel (length + 1) active' completed'

/-- The `SearchOutput` shape produced by beam search: a singleton batch
of words and attentions, a singleton list holding the `HypScore`, empty
per-step log-probabilities and states, and mask `None`. -/
abbrev BeamOut (K σ α : Type) :=
  SearchOutput (List (List Word)) (List (List α)) (List (HypScore K))
    (List K) (List σ) (Option (List (List Nat)))

/-- Lines 163-190: length normalization of the completed hypotheses,
descending sort by normalized score, optional one-best truncation
(`hyp_and_score[0]` raises on an empty list, hence `Option`), and
backtracing into `SearchOutput`s. -/
def beamFinalize [LinearOrderedRing K] (ln : LenNorm K σ α)
    (srcLength : Option Nat) (oneBest : Bool)
    (completed_hyp : List (Hyp K σ α)) : Option (List (BeamOut K σ α)) := do
  let normalized_scores := ln.normalize_completed completed_hyp srcLength
  let hyp_and_score := sortDesc (fun p => p.2) (completed_hyp.zip normalized_scores)
  let chosen ←
    if oneBest then (hyp_and_score.head?).map (fun x => [x])
    else some hyp_and_score
  some (chosen.map (fun p =>
    { word_ids := [p.1.backWords.reverse]
      attentions := [p.1.backAttns.reverse]
      score := [HypScore.make p.2 (some p.1.unnormalized)]
      logsoftmaxes := List.reverse ([] : List K)
      state := List.reverse ([] : List σ)
      mask := none }))

/-- The two distinct failure modes of `BeamSearch.generate_output`: the
`assert` on line 128 (a configuration/precondition error) versus runtime
indexing errors during the search. -/
inductive DecodeError where
  | assertionError
  | indexError
deriving DecidableEq

/-- The `BeamSearch` strategy object (lines 105-124). -/
structure BeamSearch (K σ α : Type) where
  beam_size : Nat
  max_len : Nat
  len_norm : LenNorm K σ α
  one_best : Bool

/-- `BeamSearch.generate_output` (lines 126-190): assert, search loop,
frontier fallback when nothing completed, finalization. -/
def BeamSearch.generate_output [LinearOrderedRing K] (bs : BeamSearch K σ α)
    (tr : Translator K σ α) (initial_state : σ) (src_length : Option Nat)
    (forced_trg_ids : Option (List Word)) :
    Except DecodeError (List (BeamOut K σ α)) :=
  if ¬ (forced_trg_ids = none ∨ bs.beam_size = 1) then .error .assertionError
  else
    match beamLoop tr bs.len_norm bs.beam_size forced_trg_ids initial_state
        bs.max_len 0 [Hyp.root] [] with
    | none => .error .indexError
    | some (completed, active) =>
      let completed_hyp := if completed.length = 0 then active else completed
      match beamFinalize bs.len_norm src_length bs.one_best completed_hyp with
      | none => .error .indexError
      | some results => .ok results

/-- Number of outputs of a decode result (0 on error). -/
def countOutputs : Except DecodeError (List β) → Nat
  | .ok l => l.length
  | .error _ => 0

/-- The error of a decode result, if any. -/
def decodeErr : Except DecodeError β → Option DecodeError
  | .error e => some e
  | .ok _ => none

/-! ### GreedySearch (search_strategy.py lines 43-103)

The greedy and sampling paths are batched: `logsoftmax` holds one
distribution per batch element and words are chosen per element. -/

/-- `translator.output_one_step` output on the batched path. -/
structure BTranslatorOutput (K σ α : Type) where
  state : σ
  logsoftmax : List (List K)
  attention : α
deriving DecidableEq

/-- The translator collaborator on the batched path, together with
`translator.get_nobp_state` used for per-step state snapshots. -/
structure BTranslator (K σ α : Type) where
  output_one_step : Option (List Word) → σ → BTranslatorOutput K σ α
  get_nobp_state : σ → σ

/-- Modelled from the spec: `xnmt.batcher.is_batched` (the batcher module
is not under src/).  §4.1: "When forced, batched inputs are supported (one
forced sequence per batch element)" — a forced target is either a single
sequence of word ids or one sequence per batch element, and
`GreedySearch` (line 79) dispatches on which of the two it received. -/
inductive ForcedTrg where
  | single (ws : List Word)
  | batched (seqs : List (List Word))

/-- The mutable locals of the `GreedySearch.generate_output` loop. -/
structure GreedyAcc (K σ α : Type) where
  score : List (List K)
  word_ids : List (List Word)
  attentions : List α
  logsoftmaxes : List (List K)
  states : List σ
  masks : List (List Nat)
  done : Option (List Bool)
  current_state : σ
deriving DecidableEq

/-- Lines 74-82: the chosen batch of words, before done-masking: per-batch
argmax under free decoding (lines 76-77 only normalize a numpy array
shape and have no content in this list model), the forced words at this
position otherwise (an index error when a forced sequence is
exhausted). -/
def greedyChoose [LinearOrderedRing K] (forced : Option ForcedTrg)
    (dists : List (List K)) (length : Nat) : Option (List Word) :=
  match forced with
  | none => mapOpt argmaxQ dists
  | some (.batched seqs) => mapOpt (fun s => s.get? length) seqs
  | some (.single ws) => (ws.get? length).map (fun w => [w])

/-- Lines 70-99: one iteration of the greedy loop.  After the first step,
already-finished batch elements get their word forced to `</s>`, a 0 mask
entry, and their log-probability contribution multiplied by 0. -/
def greedyStep [LinearOrderedRing K] (tr : BTranslator K σ α)
    (forced : Option ForcedTrg) (acc : GreedyAcc K σ α) :
    Option (GreedyAcc K σ α) := do
  let prev_word : Option (List Word) := acc.word_ids.getLast?
  let current_output := tr.output_one_step prev_word acc.current_state
  let current_state := current_output.state
  let word_id0 ← greedyChoose forced current_output.logsoftmax acc.word_ids.length
  let logsoft0 ← pickBatch current_output.logsoftmax word_id0
  let (word_id, logsoft, masks') ←
    match acc.done with
    | none => some (word_id0, logsoft0, acc.masks)
    | some ds => do
      let wd ← mapOpt (fun i => do
        let d ← ds.get? i
        if d then some Vocab.ES else word_id0.get? i) (List.range ds.length)
      let mask := ds.map (fun d => if d then (0 : Nat) else 1)
      some (wd, List.zipWith (fun (x : K) (m : Nat) => x * (m : K)) logsoft0 mask,
        acc.masks ++ [mask])
  let picked ← pickBatch current_output.logsoftmax word_id
  some { score := acc.score ++ [logsoft]
         word_ids := acc.word_ids ++ [word_id]
         attentions := acc.attentions ++ [current_output.attention]
         logsoftmaxes := acc.logsoftmaxes ++ [picked]
         states := acc.states ++ [tr.get_nobp_state current_state]
         masks := masks'
         done := some (word_id.map (fun x => decide (x = Vocab.ES)))
         current_state := current_state }

/-- `all(done)` for the break on line 98 (`False` before the first step). -/
def GreedyAcc.allDone (acc : GreedyAcc K σ α) : Bool :=
  match acc.done with
  | some ds => ds.all (fun b => b)
  | none => false

/-- The `for length in range(self.max_len)` loop with its early break
when every batch element has produced `</s>`. -/
def greedyLoop [LinearOrderedRing K] (tr : BTranslator K σ α)
    (forced : Option ForcedTrg) :
    Nat → GreedyAcc K σ α → Option (GreedyAcc K σ α)
  | 0, acc => some acc
  | fuel + 1, acc => do
    let acc' ← greedyStep tr forced acc
    if acc'.allDone then some acc' else greedyLoop tr forced fuel acc'

/-- The `SearchOutput` shape produced by greedy and sampling search:
batch-major words, per-step attentions, a `HypScore` of per-batch score
vectors, per-step picked log-probabilities, per-step state snapshots and
per-step masks. -/
abbrev GreedyOut (K σ α : Type) :=
  SearchOutput (List (List Word)) (List α) (HypScore (List K))
    (List (List K)) (List σ) (List (List Nat))

/-- The empty initial accumulator of the greedy loop (lines 59-68). -/
def greedyInit (initial_state : σ) : GreedyAcc K σ α :=
  { score := [], word_ids := [], attentions := [], logsoftmaxes := []
    states := [], masks := [], done := none, current_state := initial_state }

/-- The `GreedySearch` strategy object. -/
structure GreedySearch where
  max_len : Nat

/-- `GreedySearch.generate_output` (lines 57-103).  The final packing
evaluates `len(done)` (raises when the loop never ran), prepends an
all-ones step-0 mask, stacks the words batch-major and sums the per-step
masked scores. -/
def GreedySearch.generate_output [LinearOrderedRing K] (gs : GreedySearch)
    (tr : BTranslator K σ α) (initial_state : σ)
    (forced_trg_ids : Option ForcedTrg) : Option (List (GreedyOut K σ α)) := do
  let acc ← greedyLoop tr forced_trg_ids gs.max_len (greedyInit initial_state)
  let ds ← acc.done
  let masks := List.replicate ds.length 1 :: acc.masks
  let words ← stackCols acc.word_ids
  let score ← sumAxis0 acc.score
  some [{ word_ids := words, attentions := acc.attentions
          score := { normalized := score, unnormalized := score }
          logsoftmaxes := acc.logsoftmaxes, state := acc.states, mask := masks }]

/-! ### SamplingSearch (search_strategy.py lines 192-264) -/

/-- The mutable locals of the `SamplingSearch.sample_one` loop. -/
structure SampleAcc (K σ α : Type) where
  logsofts : List (List K)
  samples : List (List Word)
  states : List σ
  attentions : List α
  masks : List (List Nat)
  done : Option (List Bool)
  current_words : Option (List Word)
  current_state : σ
deriving DecidableEq

/-- Lines 232-259: one iteration of the sampling loop.  The free-decoding
draw `categorical_sample_log_prob` is modelled by the injected random
stream `rng` (per spec §9 randomness is an explicit injected dependency;
lines 236-237 only normalize a numpy array shape); the forced branch
(line 239) reads one forced sequence per batch element — a non-batched
forced target is a `TypeError` there — padding with `</s>` once a
sequence is exhausted. -/
def sampleStep [LinearOrderedRing K] (tr : BTranslator K σ α)
    (forced : Option (List (List Word))) (rng : Nat → List Word)
    (acc : SampleAcc K σ α) : Option (SampleAcc K σ α) := do
  let translator_output := tr.output_one_step acc.current_words acc.current_state
  let length := acc.samples.length
  let sample0 :=
    match forced with
    | none => rng length
    | some fts => fts.map (fun ft => ft.getD length Vocab.ES)
  let logsoft0 ← pickBatch translator_output.logsoftmax sample0
  let (sample, logsoft, masks') ←
    match acc.done with
    | none => some (sample0, logsoft0, acc.masks)
    | some ds => do
      let sp ← mapOpt (fun i => do
        let d ← ds.get? i
        if d then some Vocab.ES else sample0.get? i) (List.range ds.length)
      let mask := ds.map (fun d => if d then (0 : Nat) else 1)
      some (sp, List.zipWith (fun (x : K) (m : Nat) => x * (m : K)) logsoft0 mask,
        acc.masks ++ [mask])
  some { logsofts := acc.logsofts ++ [logsoft]
         samples := acc.samples ++ [sample]
         states := acc.states ++ [tr.get_nobp_state translator_output.state]
         attentions := acc.attentions ++ [translator_output.attention]
         masks := masks'
         done := some (sample.map (fun x => decide (x = Vocab.ES)))
         current_words := some sample
         current_state := translator_output.state }

/-- `all(done)` for the break on line 258. -/
def SampleAcc.allDone (acc : SampleAcc K σ α) : Bool :=
  match acc.done with
  | some ds => ds.all (fun b => b)
  | none => false

/-- The `for length in range(self.max_length)` loop of `sample_one`. -/
def sampleLoop [LinearOrderedRing K] (tr : BTranslator K σ α)
    (forced : Option (List (List Word))) (rng : Nat → List Word) :
    Nat → SampleAcc K σ α → Option (SampleAcc K σ α)
  | 0, acc => some acc
  | fuel + 1, acc => do
    let acc' ← sampleStep tr forced rng acc
    if acc'.allDone then some acc' else sampleLoop tr forced rng fuel acc'

/-- The empty initial accumulator of `sample_one` (lines 221-230). -/
def sampleInit (initial_state : σ) : SampleAcc K σ α :=
  { logsofts := [], samples := [], states := [], attentions := []
    masks := [], done := none, current_words := none
    current_state := initial_state }

/-- The `SamplingSearch` strategy object. -/
structure SamplingSearch where
  max_length : Nat
  sample_size : Nat

/-- `SamplingSearch.sample_one` (lines 220-264): run the sampling loop,
sum the per-step (masked) log-probabilities, prepend the all-ones step-0
mask and stack the samples batch-major. -/
def SamplingSearch.sample_one [LinearOrderedRing K] (ss : SamplingSearch)
    (tr : BTranslator K σ α) (initial_state : σ)
    (forced_trg_ids : Option (List (List Word))) (rng : Nat → List Word) :
    Option (GreedyOut K σ α) := do
  let acc ← sampleLoop tr forced_trg_ids rng ss.max_length (sampleInit initial_state)
  let scores ← sumAxis0 acc.logsofts
  let ds ← acc.done
  let masks := List.replicate ds.length 1 :: acc.masks
  let samples ← stackCols acc.samples
  some { word_ids := samples, attentions := acc.attentions
         score := { normalized := scores, unnormalized := scores }
         logsoftmaxes := acc.logsofts, state := acc.states, mask := masks }

/-- `SamplingSearch.generate_output` (lines 209-217): `sample_size`
independent samples in sample-index order; the forced target is passed
only to the very first sample.  The random stream is indexed by the
sample number. -/
def SamplingSearch.generate_output [LinearOrderedRing K] (ss : SamplingSearch)
    (tr : BTranslator K σ α) (initial_state : σ)
    (forced_trg_ids : Option (List (List Word))) (rng : Nat → Nat → List Word) :
    Option (List (GreedyOut K σ α)) :=
  mapOpt (fun k =>
    if k = 0 ∧ forced_trg_ids.isSome then
      SamplingSearch.sample_one ss tr initial_state forced_trg_ids (rng k)
    else
      SamplingSearch.sample_one ss tr initial_state none (rng k)) (List.range ss.sample_size)

/-! ### Concrete instances used by witnesses and counterexamples -/

/-- Modelled from the spec: `NoNormalization`, the default `len_norm` of
`BeamSearch` (xnmt.length_normalization is not under src/).  §4.3 and §6
give the contract `normalize_partial(priorScore, stepLogProb, newLength)`
and `normalize_completed(hypotheses, sourceLength)`; with no
normalization the partial score is the running sum of log-probabilities
and completed hypotheses keep their running scores, one score per
hypothesis in the same order. -/
def noNormZ : LenNorm ℤ Nat Unit :=
  { normalize_one := fun s lp _ => s + lp
    normalize_completed := fun hyps _ => hyps.map Hyp.score }

/-- A small deterministic scoring model over the vocabulary \x7b0, 1, 2\x7d
(1 = `</s>`): constant distribution, state counting steps. -/
def bdemoTr : Translator ℤ Nat Unit :=
  { output_one_step := fun _ s =>
      { state := s + 1, logsoftmax := [-1, -2, -3], attention := () } }

/-- Distributions of the counterexample model for C1, over the vocabulary
\x7b0,...,5\x7d (1 = `</s>`), keyed by previous word and decoder state. -/
def cexDist : Option Word → Nat → List ℤ
  | none, _ => [-100, -100, -1, -2, -3, -100]
  | some 2, 9 => [-100, -3, -200, -201, -202, -203]
  | some 3, 9 => [-100, -100, -4, -200, -201, -202]
  | some 4, 9 => [-100, -100, -5, -200, -201, -202]
  | some 2, 93 => [-100, -10, -11, -300, -301, -302]
  | some 2, 94 => [-100, -300, -12, -301, -302, -303]
  | some 2, 932 => [-100, -1, -300, -301, -302, -303]
  | some 2, 942 => [-100, -2, -300, -301, -302, -303]
  | _, _ => [-100, -1, -300, -301, -302, -303]

/-- The counterexample scoring model for C1: the decoder state encodes the
call history, so sibling hypotheses with equal previous words still see
distinct distributions. -/
def cexTr : Translator ℤ Nat Unit :=
  { output_one_step := fun w s =>
      { state := 10 * s + (match w with | none => 9 | some k => k)
        logsoftmax := cexDist w s
        attention := () } }

/-- A batched demo scoring model (batch size 1, vocabulary \x7b0,...,4\x7d)
for the greedy and sampling witnesses. -/
def sdemoTr : BTranslator ℤ Nat Unit :=
  { output_one_step := fun _ s =>
      { state := s + 1, logsoftmax := [[-1, -2, -3, -4, -5]], attention := () }
    get_nobp_state := fun s => s }

/-- A batched demo model whose argmax emits word 3 twice and then `</s>`,
driven by the step-counting state. -/
def gdemoTr : BTranslator ℤ Nat Unit :=
  { output_one_step := fun _ s =>
      { state := s + 1
        logsoftmax := if s < 2 then [[-10, -9, -8, -1, -7]] else [[-10, -1, -8, -9, -7]]
        attention := () }
    get_nobp_state := fun s => s }

/-- A fixed random stream for the sampling witnesses: every free draw
picks word 2. -/
def demoRng : Nat → Nat → List Word := fun _ _ => [2]

/-- A batched demo model with batch size 2: element 0 emits `</s>` at the
first step, element 1 only at the third. -/
def c6Tr : BTranslator ℤ Nat Unit :=
  { output_one_step := fun _ s =>
      { state := s + 1
        logsoftmax :=
          if s < 2 then [[-10, -1, -8], [-1, -10, -8]]
          else [[-10, -1, -8], [-10, -1, -8]]
        attention := () }
    get_nobp_state := fun s => s }

/-- `all(done)` in terms of the step's recorded words: every batch
element's recorded word is `</s>` (the content of the break condition on
line 98). -/
def allES (ws : List Word) : Bool := ws.all (fun x => decide (x = Vocab.ES))

/-- The loop invariant of `GreedySearch.generate_output` relating the
done flags, the recorded words, masks and per-step scores of a batch of
size `B`: a batch element that has recorded `</s>` at step `k` records
`</s>`, a 0 mask entry and a zeroed score contribution at every later
step `m` (the mask of step `m ≥ 1` lives at index `m - 1` before the
final all-ones step-0 mask is prepended). -/
structure GreedyInv [Zero K] [One K] (acc : GreedyAcc K σ α) (B : Nat) : Prop where
  wlen : ∀ w ∈ acc.word_ids, w.length = B
  slen : ∀ s ∈ acc.score, s.length = B
  mlen : ∀ mk ∈ acc.masks, mk.length = B
  dlen : ∀ ds, acc.done = some ds → ds.length = B
  dnone : acc.done = none → acc.word_ids = [] ∧ acc.score = [] ∧ acc.masks = []
  dlast : ∀ ds, acc.done = some ds → ∃ w, acc.word_ids.getLast? = some w ∧
    ds = w.map (fun x => decide (x = Vocab.ES))
  salign : acc.score.length = acc.word_ids.length
  malign : acc.word_ids ≠ [] → acc.masks.length + 1 = acc.word_ids.length
  sticky : ∀ k m i, k < m → m < acc.word_ids.length →
    (acc.word_ids.getD k []).getD i 0 = Vocab.ES →
    (acc.word_ids.getD m []).getD i 0 = Vocab.ES ∧
    (acc.masks.getD (m - 1) []).getD i 1 = 0 ∧
    (acc.score.getD m []).getD i 1 = 0

/-- The normalized score stored in a beam `SearchOutput` (its `score`
slot is the singleton list `[HypScore(score, unnormalized)]`). -/
def headNorm [Zero K] (o : BeamOut K σ α) : K :=
  (o.score.getD 0 { normalized := 0, unnormalized := 0 }).normalized

/-- The concrete greedy trace of `c6Tr`, for the C6 witness. -/
def c6Acc : GreedyAcc ℤ Nat Unit :=
  (greedyLoop c6Tr none 5 (greedyInit 0)).getD (greedyInit 0)

/-- The concrete greedy result of `gdemoTr`, for the C5 witness. -/
def c5Outs : List (GreedyOut ℤ Nat Unit) :=
  (GreedySearch.generate_output ⟨5⟩ gdemoTr 0 none).getD []

/-- A concrete degenerate beam run (no hypothesis ever emits `</s>`),
for the C8 witness. -/
def c8Pair : List (Hyp ℤ Nat Unit) × List (Hyp ℤ Nat Unit) :=
  (beamLoop bdemoTr noNormZ 1 none 0 3 0 [Hyp.root] []).getD ([], [])

/-- A step output of the demo model, used to build concrete hypotheses. -/
def c7Out : TranslatorOutput ℤ Nat Unit := bdemoTr.output_one_step none 0

/-- The concrete outputs of a one-best beam run, for the C10 witness. -/
def c10BeamOuts : List (BeamOut ℤ Nat Unit) :=
  (BeamSearch.generate_output (⟨2, 5, noNormZ, true⟩ : BeamSearch ℤ Nat Unit)
    bdemoTr 0 none none).toOption.getD []

/-- A concrete finished hypothesis (last word `</s>`). -/
def c7H1 : Hyp ℤ Nat Unit := Hyp.node (-4) c7Out Hyp.root 1 (-4)

/-- A concrete unfinished hypothesis (last word 2). -/
def c7H2 : Hyp ℤ Nat Unit := Hyp.node (-6) c7Out Hyp.root 2 (-6)

/-- The concrete expansion pass over `[c7H1, c7H2]`, for the C7 witness. -/
def c7Res : List (Hyp ℤ Nat Unit) × List (Hyp ℤ Nat Unit) :=
  (beamExpand bdemoTr noNormZ 2 none 0 1 [c7H1, c7H2] [] []).getD ([], [])

/-- The concrete sampling outputs of scenario 3 (`sampleCount = 3`,
forced `[[3, 1]]`), for the C2 witness. -/
def c2Outs : List (GreedyOut ℤ Nat Unit) :=
  (SamplingSearch.generate_output (⟨3, 3⟩ : SamplingSearch) sdemoTr 0
    (some [[3, 1]]) demoRng).getD []

/-! ### Library lemmas about the helpers -/

theorem mapOpt_length (f : γ → Option δ) :
    ∀ {l : List γ} {l' : List δ}, mapOpt f l = some l' → l'.length = l.length
  | [], l', h => by
    simp only [mapOpt, Option.some_inj] at h
    simp [← h]
  | x :: xs, l', h => by
    cases hfx : f x with
    | none => simp [mapOpt, hfx] at h
    | some y =>
      cases hxs : mapOpt f xs with
      | none => simp [mapOpt, hfx, hxs] at h
      | some ys =>
        simp only [mapOpt, hfx, hxs, Option.bind_eq_bind, Option.some_bind,
          Option.some_inj] at h
        subst h
        simp [mapOpt_length f hxs]

theorem mapOpt_get (f : γ → Option δ) :
    ∀ {l : List γ} {l' : List δ}, mapOpt f l = some l' →
      ∀ i a, l.get? i = some a → l'.get? i = f a
  | [], l', h => by intro i a ha; simp at ha
  | x :: xs, l', h => by
    cases hfx : f x with
    | none => simp [mapOpt, hfx] at h
    | some y =>
      cases hxs : mapOpt f xs with
      | none => simp [mapOpt, hfx, hxs] at h
      | some ys =>
        simp only [mapOpt, hfx, hxs, Option.bind_eq_bind, Option.some_bind,
          Option.some_inj] at h
        subst h
        intro i a ha
        cases i with
        | zero =>
          simp only [List.get?_cons_zero, Option.some_inj] at ha
          subst ha; simp [hfx]
        | succ n =>
          simp only [List.get?_cons_succ] at ha ⊢
          exact mapOpt_get f hxs n a ha

theorem mapOpt_mem (f : γ → Option δ) :
    ∀ {l : List γ} {l' : List δ}, mapOpt f l = some l' →
      ∀ b ∈ l', ∃ a ∈ l, f a = some b
  | [], l', h => by
    simp only [mapOpt, Option.some_inj] at h
    subst h; simp
  | x :: xs, l', h => by
    cases hfx : f x with
    | none => simp [mapOpt, hfx] at h
    | some y =>
      cases hxs : mapOpt f xs with
      | none => simp [mapOpt, hfx, hxs] at h
      | some ys =>
        simp only [mapOpt, hfx, hxs, Option.bind_eq_bind, Option.some_bind,
          Option.some_inj] at h
        subst h
        intro b hb
        rcases List.mem_cons.mp hb with hb | hb
        · exact ⟨x, List.mem_cons_self _ _, hb ▸ hfx⟩
        · rcases mapOpt_mem f hxs b hb with ⟨a, ha, hfa⟩
          exact ⟨a, List.mem_cons_of_mem _ ha, hfa⟩

theorem mapOpt_isSome (f : γ → Option δ) :
    ∀ {l : List γ}, (∀ a ∈ l, (f a).isSome) → ∃ l', mapOpt f l = some l'
  | [], _ => ⟨[], rfl⟩
  | x :: xs, h => by
    rcases Option.isSome_iff_exists.mp (h x (List.mem_cons_self _ _)) with ⟨y, hy⟩
    rcases mapOpt_isSome f (fun a ha => h a (List.mem_cons_of_mem _ ha)) with ⟨ys, hys⟩
    exact ⟨y :: ys, by simp [mapOpt, hy, hys]⟩

theorem insDesc_perm [LinearOrder K] (key : β → K) (x : β) :
    ∀ l : List β, List.Perm (insDesc key x l) (x :: l)
  | [] => List.Perm.refl _
  | y :: ys => by
    rw [insDesc]
    split
    · exact (List.Perm.cons y (insDesc_perm key x ys)).trans
        (List.Perm.swap x y ys)
    · exact List.Perm.refl _

theorem sortDesc_perm [LinearOrder K] (key : β → K) (l : List β) :
    List.Perm (sortDesc key l) l := by
  suffices h : ∀ (l acc : List β),
      List.Perm (l.foldl (fun acc x => insDesc key x acc) acc) (acc ++ l) by
    simpa using h l []
  intro l
  induction l with
  | nil => intro acc; simp
  | cons x xs ih =>
    intro acc
    have h1 : (x :: xs).foldl (fun acc x => insDesc key x acc) acc
        = xs.foldl (fun acc x => insDesc key x acc) (insDesc key x acc) := rfl
    rw [h1]
    refine (ih (insDesc key x acc)).trans ?_
    refine (List.Perm.append_right xs (insDesc_perm key x acc)).trans ?_
    exact List.perm_middle.symm

theorem insDesc_sorted [LinearOrder K] (key : β → K) (x : β) :
    ∀ {l : List β}, List.Pairwise (fun a b => key b ≤ key a) l →
      List.Pairwise (fun a b => key b ≤ key a) (insDesc key x l)
  | [], _ => by simp [insDesc]
  | y :: ys, h => by
    rw [insDesc]
    rcases List.pairwise_cons.mp h with ⟨hy, hys⟩
    split
    case isTrue hxy =>
      refine List.pairwise_cons.mpr ⟨?_, insDesc_sorted key x hys⟩
      intro z hz
      rcases List.mem_cons.mp ((insDesc_perm key x ys).mem_iff.mp hz) with rfl | hz
      · exact hxy
      · exact hy z hz
    case isFalse hxy =>
      refine List.pairwise_cons.mpr ⟨?_, h⟩
      intro z hz
      rcases List.mem_cons.mp hz with rfl | hz
      · exact le_of_not_le hxy
      · exact (hy z hz).trans (le_of_not_le hxy)

theorem sortDesc_sorted [LinearOrder K] (key : β → K) (l : List β) :
    List.Pairwise (fun a b => key b ≤ key a) (sortDesc key l) := by
  suffices h : ∀ (l acc : List β),
      List.Pairwise (fun a b => key b ≤ key a) acc →
      List.Pairwise (fun a b => key b ≤ key a)
        (l.foldl (fun acc x => insDesc key x acc) acc) by
    exact h l [] (List.Pairwise.nil)
  intro l
  induction l with
  | nil => intro acc hacc; simpa using hacc
  | cons x xs ih => intro acc hacc; exact ih _ (insDesc_sorted key x hacc)

theorem sortDesc_length [LinearOrder K] (key : β → K) (l : List β) :
    (sortDesc key l).length = l.length :=
  (sortDesc_perm key l).length_eq

theorem mem_topWords_lt [LinearOrder K] [Zero K] {score : List K} {k i : Nat}
    (h : i ∈ topWords score k) : i < score.length := by
  have h1 : i ∈ sortDesc (fun i => score.getD i 0) (List.range score.length) :=
    List.mem_of_mem_take h
  have h2 := (sortDesc_perm _ _).mem_iff.mp h1
  simpa using h2

theorem topWords_length [LinearOrder K] [Zero K] (score : List K) (k : Nat) :
    (topWords score k).length = min k score.length := by
  simp [topWords, sortDesc_length]

theorem pickBatch_some {dists : List (List K)} {ws : List Word} {l : List K}
    (h : pickBatch dists ws = some l) :
    l.length = ws.length ∧ dists.length = ws.length := by
  unfold pickBatch at h
  split at h
  case isTrue heq =>
    have h1 := mapOpt_length _ h
    constructor
    · simpa [List.length_zip, heq] using h1
    · exact heq
  case isFalse => cases h

theorem Hyp.backWords_length : ∀ (h : Hyp K σ α), h.backWords.length = Hyp.depth h
  | .root => rfl
  | .node _ _ p _ _ => by
    simp [Hyp.backWords, Hyp.depth, Hyp.backWords_length p]

theorem Hyp.eq_root_of_depth_eq_zero : ∀ {h : Hyp K σ α}, Hyp.depth h = 0 → h = .root
  | .root, _ => rfl
  | .node _ _ _ _ _, h0 => by simp [Hyp.depth] at h0

/-! ### Structure of one beam expansion pass -/

theorem beamExpand_spec [LinearOrderedRing K] (tr : Translator K σ α)
    (ln : LenNorm K σ α) (bsz : Nat) (forced : Option (List Word))
    (init : σ) (length : Nat) :
    ∀ {active completed newSet : List (Hyp K σ α)}
      {c' ns' : List (Hyp K σ α)},
      beamExpand tr ln bsz forced init length active completed newSet
        = some (c', ns') →
      c' = completed ++ active.filter (beamDone length) ∧
      ∃ css, mapOpt (expandOne tr ln bsz forced init length)
          (active.filter (fun h => ! beamDone length h)) = some css ∧
        ns' = newSet ++ css.flatten
  | [], completed, newSet, c', ns', h => by
    simp only [beamExpand, Option.some_inj, Prod.mk.injEq] at h
    rcases h with ⟨h1, h2⟩
    subst h1; subst h2
    exact ⟨by simp, [], rfl, by simp [mapOpt]⟩
  | hyp :: rest, completed, newSet, c', ns', h => by
    rw [beamExpand] at h
    split at h
    case isTrue hd =>
      rcases beamExpand_spec tr ln bsz forced init length h with ⟨h1, css, hcss, h2⟩
      refine ⟨?_, css, ?_, h2⟩
      · rw [h1]; simp [List.filter_cons, hd]
      · simpa [List.filter_cons, hd] using hcss
    case isFalse hd =>
      cases hk : expandOne tr ln bsz forced init length hyp with
      | none => simp [hk] at h
      | some kids =>
        simp only [hk, Option.bind_eq_bind, Option.some_bind] at h
        rcases beamExpand_spec tr ln bsz forced init length h with ⟨h1, css, hcss, h2⟩
        refine ⟨?_, kids :: css, ?_, ?_⟩
        · rw [h1]; simp [List.filter_cons, hd]
        · simp [List.filter_cons, hd, mapOpt, hk, hcss]
        · rw [h2]; simp

theorem hypChildren_free [LinearOrderedRing K] (ln : LenNorm K σ α)
    (bsz : Nat) (length : Nat) (out : TranslatorOutput K σ α)
    (hyp : Hyp K σ α) :
    ∃ kids, hypChildren ln bsz none length out hyp = some kids ∧
      kids.length = min bsz out.logsoftmax.length ∧
      ∀ c ∈ kids, ∃ s w u, c = Hyp.node s out hyp w u := by
  have hs : ∀ w ∈ topWords out.logsoftmax bsz,
      ((fun cur_word => do
        let sw ← out.logsoftmax.get? cur_word
        some (Hyp.node (ln.normalize_one hyp.score sw (length + 1)) out hyp
          cur_word (sw + hyp.unnormalized))) w).isSome := by
    intro w hw
    have hw' := mem_topWords_lt hw
    simp [List.get?_eq_getElem?, List.getElem?_eq_getElem hw']
  rcases mapOpt_isSome _ hs with ⟨kids, hkids⟩
  refine ⟨kids, ?_, ?_, ?_⟩
  · simpa [hypChildren] using hkids
  · rw [mapOpt_length _ hkids, topWords_length]
  · intro c hc
    rcases mapOpt_mem _ hkids c hc with ⟨w, _, hfw⟩
    simp only [List.get?_eq_getElem?] at hfw
    cases hg : out.logsoftmax[w]? with
    | none => simp [hg] at hfw
    | some v =>
      simp only [hg, Option.bind_eq_bind, Option.some_bind, Option.some_inj] at hfw
      exact ⟨_, _, _, hfw.symm⟩

theorem expandOne_free [LinearOrderedRing K] (tr : Translator K σ α)
    (ln : LenNorm K σ α) {bsz : Nat} (init : σ) {length : Nat}
    (hbs : 1 ≤ bsz) (hne : ∀ w s, (tr.output_one_step w s).logsoftmax ≠ [])
    {hyp : Hyp K σ α} (hdep : Hyp.depth hyp = length) :
    ∃ kids, expandOne tr ln bsz none init length hyp = some kids ∧
      (∀ c ∈ kids, Hyp.depth c = length + 1) ∧ kids ≠ [] := by
  have hstate : ∃ st, (if length = 0 then some init else Hyp.stateOpt hyp) = some st := by
    by_cases h0 : length = 0
    · exact ⟨init, by simp [h0]⟩
    · cases hyp with
      | root => simp [Hyp.depth] at hdep; omega
      | node s o p w u => exact ⟨o.state, by simp [h0, Hyp.stateOpt]⟩
  rcases hstate with ⟨st, hst⟩
  have hexp : expandOne tr ln bsz none init length hyp
      = hypChildren ln bsz none length
          (tr.output_one_step (if length = 0 then none else Hyp.word hyp) st) hyp := by
    rw [expandOne]
    by_cases h0 : length = 0
    · rw [if_pos h0] at hst ⊢
      cases hst
      simp
    · rw [if_neg h0] at hst ⊢
      rw [hst]
      simp
  rcases hypChildren_free ln bsz length
      (tr.output_one_step (if length = 0 then none else Hyp.word hyp) st) hyp with
    ⟨kids, hk, hklen, hkmem⟩
  refine ⟨kids, ?_, ?_, ?_⟩
  · rw [hexp]
    exact hk
  · intro c hc
    rcases hkmem c hc with ⟨s, w, u, rfl⟩
    simp [Hyp.depth, hdep]
  · intro hnil
    subst hnil
    have hpos : 0 < (tr.output_one_step
        (if length = 0 then none else Hyp.word hyp) st).logsoftmax.length :=
      List.length_pos.mpr (hne _ _)
    simp only [List.length_nil] at hklen
    omega

theorem beamExpand_inv [LinearOrderedRing K] (tr : Translator K σ α)
    (ln : LenNorm K σ α) {bsz : Nat} (init : σ) {length : Nat}
    (hbs : 1 ≤ bsz) (hne : ∀ w s, (tr.output_one_step w s).logsoftmax ≠ []) :
    ∀ (active completed newSet : List (Hyp K σ α)),
      (∀ h ∈ active, Hyp.depth h = length) →
      ∃ c' ns', beamExpand tr ln bsz none init length active completed newSet
          = some (c', ns') ∧
        (∀ h ∈ c', h ∈ completed ∨ h ∈ active) ∧
        completed.length ≤ c'.length ∧
        c'.length ≤ completed.length + active.length ∧
        (∀ h ∈ ns', h ∈ newSet ∨ Hyp.depth h = length + 1) ∧
        newSet.length ≤ ns'.length ∧
        (active ≠ [] → completed.length < c'.length ∨ newSet.length < ns'.length)
  | [], completed, newSet, _ =>
    ⟨completed, newSet, rfl, fun h hh => Or.inl hh, le_refl _, by simp,
      fun h hh => Or.inl hh, le_refl _, fun hcon => absurd rfl hcon⟩
  | hyp :: rest, completed, newSet, hdep => by
    cases hd : beamDone length hyp with
    | true =>
      rcases beamExpand_inv tr ln init hbs hne rest (completed ++ [hyp]) newSet
          (fun h hh => hdep h (List.mem_cons_of_mem _ hh)) with
        ⟨c', ns', heq, hmem, hlow, hhigh, hns, hnsm, hgrow⟩
      refine ⟨c', ns', ?_, ?_, ?_, ?_, hns, hnsm, ?_⟩
      · simp only [beamExpand, hd, if_true]
        exact heq
      · intro h hh
        rcases hmem h hh with hh | hh
        · rcases List.mem_append.mp hh with hh | hh
          · exact Or.inl hh
          · exact Or.inr (List.mem_cons.mpr (Or.inl (List.mem_singleton.mp hh)))
        · exact Or.inr (List.mem_cons_of_mem _ hh)
      · refine le_trans ?_ hlow
        simp
      · have h2 : (completed ++ [hyp]).length = completed.length + 1 := by simp
        have h3 := hhigh
        rw [h2] at h3
        simp only [List.length_cons]
        omega
      · intro _
        left
        have h1 : completed.length < (completed ++ [hyp]).length := by simp
        omega
    | false =>
      rcases expandOne_free tr ln init hbs hne
          (hdep hyp (List.mem_cons_self _ _)) with ⟨kids, hk, hkdep, hknil⟩
      rcases beamExpand_inv tr ln init hbs hne rest completed (newSet ++ kids)
          (fun h hh => hdep h (List.mem_cons_of_mem _ hh)) with
        ⟨c', ns', heq, hmem, hlow, hhigh, hns, hnsm, hgrow⟩
      refine ⟨c', ns', ?_, ?_, hlow, ?_, ?_, ?_, ?_⟩
      · simp only [beamExpand, hd, if_false, hk, Option.bind_eq_bind, Option.some_bind]
        exact heq
      · intro h hh
        rcases hmem h hh with hh | hh
        · exact Or.inl hh
        · exact Or.inr (List.mem_cons_of_mem _ hh)
      · have := hhigh
        simp only [List.length_cons] at this ⊢
        omega
      · intro h hh
        rcases hns h hh with hh | hh
        · rcases List.mem_append.mp hh with hh | hh
          · exact Or.inl hh
          · exact Or.inr (hkdep h hh)
        · exact Or.inr hh
      · refine le_trans ?_ hnsm
        simp
      · intro _
        right
        have h1 : newSet.length < (newSet ++ kids).length := by
          have : 0 < kids.length := List.length_pos.mpr hknil
          simp only [List.length_append]
          omega
        omega

theorem beamLoop_inv [LinearOrderedRing K] (tr : Translator K σ α)
    (ln : LenNorm K σ α) {bsz : Nat} (init : σ)
    (hbs : 1 ≤ bsz) (hne : ∀ w s, (tr.output_one_step w s).logsoftmax ≠ []) :
    ∀ (fuel length : Nat) (active completed : List (Hyp K σ α)),
      (∀ h ∈ active, Hyp.depth h = length) →
      active.length ≤ bsz →
      (∀ h ∈ completed, Hyp.depth h ≤ length) →
      completed.length ≤ 2 * bsz - 1 →
      (active ≠ [] ∨ completed ≠ []) →
      ∃ fc fa, beamLoop tr ln bsz none init fuel length active completed
          = some (fc, fa) ∧
        (∀ h ∈ fc, Hyp.depth h ≤ length + fuel) ∧
        (∀ h ∈ fa, Hyp.depth h ≤ length + fuel) ∧
        fc.length ≤ 2 * bsz - 1 ∧ fa.length ≤ bsz ∧
        (fc ≠ [] ∨ fa ≠ [])
  | 0, length, active, completed, hadep, halen, hcdep, hclen, hne2 =>
    ⟨completed, active, rfl, fun h hh => by simpa using hcdep h hh,
      fun h hh => by simp [hadep h hh], hclen, halen, hne2.symm⟩
  | fuel + 1, length, active, completed, hadep, halen, hcdep, hclen, hne2 => by
    by_cases hstop : bsz ≤ completed.length
    · refine ⟨completed, active, ?_, fun h hh => ?_, fun h hh => ?_, hclen, halen,
        hne2.symm⟩
      · rw [beamLoop, if_pos hstop]
      · have := hcdep h hh; omega
      · have := hadep h hh; omega
    · rcases beamExpand_inv tr ln init hbs hne active completed [] hadep with
        ⟨c', ns', hexp, hmem, hlow, hhigh, hns, _, hgrow⟩
      have hadep' : ∀ h ∈ (sortDesc Hyp.score ns').take bsz,
          Hyp.depth h = length + 1 := by
        intro h hh
        have h1 : h ∈ ns' :=
          (sortDesc_perm Hyp.score ns').mem_iff.mp (List.mem_of_mem_take hh)
        rcases hns h h1 with hh2 | hh2
        · simp at hh2
        · exact hh2
      have halen' : ((sortDesc Hyp.score ns').take bsz).length ≤ bsz := by
        simp [List.length_take]
      have hcdep' : ∀ h ∈ c', Hyp.depth h ≤ length + 1 := by
        intro h hh
        rcases hmem h hh with hh | hh
        · exact le_trans (hcdep h hh) (Nat.le_succ _)
        · rw [hadep h hh]; omega
      have hclen' : c'.length ≤ 2 * bsz - 1 := by
        have := hhigh
        omega
      have hne2' : ((sortDesc Hyp.score ns').take bsz ≠ [] ∨ c' ≠ []) := by
        rcases hne2 with hane | hcne
        · rcases hgrow hane with hg | hg
          · right
            intro hcnil
            rw [hcnil] at hg
            simp at hg
          · left
            have hns_pos : 0 < ns'.length := by simpa using hg
            intro htake
            have hlen := congrArg List.length htake
            simp only [List.length_take, sortDesc_length, List.length_nil] at hlen
            rcases Nat.min_eq_zero_iff.mp hlen with h0 | h0 <;> omega
        · right
          intro hcnil
          rw [hcnil] at hlow
          simp at hlow
          rw [hlow] at hcne
          exact hcne rfl
      rcases beamLoop_inv tr ln init hbs hne fuel (length + 1)
          ((sortDesc Hyp.score ns').take bsz) c' hadep' halen' hcdep' hclen' hne2' with
        ⟨fc, fa, hloop, hfcdep, hfadep, hfclen, hfalen, hfne⟩
      refine ⟨fc, fa, ?_, ?_, ?_, hfclen, hfalen, hfne⟩
      · rw [beamLoop, if_neg hstop]
        simp only [hexp, Option.bind_eq_bind, Option.some_bind]
        exact hloop
      · intro h hh
        have := hfcdep h hh
        omega
      · intro h hh
        have := hfadep h hh
        omega

/-! ### Finalization -/

theorem beamFinalize_inv [LinearOrderedRing K] {ln : LenNorm K σ α}
    (hln : ∀ hyps src, (ln.normalize_completed hyps src).length = hyps.length)
    (src : Option Nat) (oneBest : Bool) {completed_hyp : List (Hyp K σ α)}
    (hcne : completed_hyp ≠ []) :
    ∃ outs, beamFinalize ln src oneBest completed_hyp = some outs ∧
      outs.length = (if oneBest then 1 else completed_hyp.length) ∧
      (∀ o ∈ outs, ∃ h ∈ completed_hyp,
        o.word_ids = [(Hyp.backWords h).reverse] ∧
        o.attentions = [(Hyp.backAttns h).reverse] ∧
        o.logsoftmaxes = [] ∧ o.state = [] ∧ o.mask = none) ∧
      List.Pairwise (fun a b => headNorm b ≤ headNorm a) outs := by
  have hzlen : (completed_hyp.zip (ln.normalize_completed completed_hyp src)).length
      = completed_hyp.length := by
    simp [List.length_zip, hln]
  have hslen : (sortDesc (fun p => p.2)
      (completed_hyp.zip (ln.normalize_completed completed_hyp src))).length
      = completed_hyp.length := by
    rw [sortDesc_length, hzlen]
  have hsmem : ∀ p ∈ sortDesc (fun p => p.2)
      (completed_hyp.zip (ln.normalize_completed completed_hyp src)),
      p.1 ∈ completed_hyp := by
    intro p hp
    have h1 := (sortDesc_perm _ _).mem_iff.mp hp
    exact (List.of_mem_zip h1).1
  have hsorted := sortDesc_sorted (fun p : Hyp K σ α × K => p.2)
    (completed_hyp.zip (ln.normalize_completed completed_hyp src))
  have hsnil : sortDesc (fun p => p.2)
      (completed_hyp.zip (ln.normalize_completed completed_hyp src)) ≠ [] := by
    intro h0
    have := congrArg List.length h0
    rw [hslen] at this
    simp at this
    exact hcne this
  set hs := sortDesc (fun p => p.2)
    (completed_hyp.zip (ln.normalize_completed completed_hyp src)) with hhs
  have hout : ∀ (chosen : List (Hyp K σ α × K)), (∀ p ∈ chosen, p ∈ hs) →
      List.Pairwise (fun (a b : Hyp K σ α × K) => b.2 ≤ a.2) chosen →
      (∀ o ∈ chosen.map (fun p =>
        ({ word_ids := [(Hyp.backWords p.1).reverse]
           attentions := [(Hyp.backAttns p.1).reverse]
           score := [HypScore.make p.2 (some (Hyp.unnormalized p.1))]
           logsoftmaxes := List.reverse ([] : List K)
           state := List.reverse ([] : List σ)
           mask := none } : BeamOut K σ α)),
        ∃ h ∈ completed_hyp,
          o.word_ids = [(Hyp.backWords h).reverse] ∧
          o.attentions = [(Hyp.backAttns h).reverse] ∧
          o.logsoftmaxes = [] ∧ o.state = [] ∧ o.mask = none) ∧
      List.Pairwise (fun a b => headNorm b ≤ headNorm a) (chosen.map (fun p =>
        ({ word_ids := [(Hyp.backWords p.1).reverse]
           attentions := [(Hyp.backAttns p.1).reverse]
           score := [HypScore.make p.2 (some (Hyp.unnormalized p.1))]
           logsoftmaxes := List.reverse ([] : List K)
           state := List.reverse ([] : List σ)
           mask := none } : BeamOut K σ α))) := by
    intro chosen hsub hpair
    constructor
    · intro o ho
      rcases List.mem_map.mp ho with ⟨p, hp, rfl⟩
      exact ⟨p.1, hsmem p (hsub p hp), rfl, rfl, rfl, rfl, rfl⟩
    · refine List.Pairwise.map _ ?_ hpair
      intro a b hab
      simpa [headNorm, HypScore.make] using hab
  cases oneBest with
  | true =>
    cases hhead : hs with
    | nil => exact absurd hhead hsnil
    | cons x t =>
      have hx : x ∈ hs := by rw [hhead]; exact List.mem_cons_self _ _
      rcases hout [x] (by simpa using hx) (by simp) with ⟨hmem1, hpair1⟩
      refine ⟨_, ?_, by simp, hmem1, hpair1⟩
      rw [beamFinalize, ← hhs, hhead]
      simp
  | false =>
    rcases hout hs (fun p hp => hp) hsorted with ⟨hmem1, hpair1⟩
    refine ⟨_, ?_, ?_, hmem1, hpair1⟩
    · rw [beamFinalize, ← hhs]
      simp
    · simp [hslen]

theorem beamGen_inv [LinearOrderedRing K] (bs : BeamSearch K σ α)
    (tr : Translator K σ α) (init : σ) (src : Option Nat)
    (hbs : 1 ≤ bs.beam_size)
    (hne : ∀ w s, (tr.output_one_step w s).logsoftmax ≠ [])
    (hln : ∀ hyps src',
      (bs.len_norm.normalize_completed hyps src').length = hyps.length) :
    ∃ outs, BeamSearch.generate_output bs tr init src none = Except.ok outs ∧
      1 ≤ outs.length ∧ outs.length ≤ 2 * bs.beam_size - 1 ∧
      (∀ o ∈ outs, ∀ row ∈ o.word_ids, row.length ≤ bs.max_len) ∧
      (bs.one_best = true → outs.length = 1) ∧
      (bs.one_best = false →
        List.Pairwise (fun a b => headNorm b ≤ headNorm a) outs) := by
  rcases beamLoop_inv tr bs.len_norm init hbs hne bs.max_len 0 [Hyp.root] []
      (by intro h hh; simp at hh; subst hh; rfl) (by simpa using hbs)
      (by intro h hh; simp at hh) (by simp) (Or.inl (by simp)) with
    ⟨fc, fa, hloop, hfcdep, hfadep, hfclen, hfalen, hfne⟩
  set ch := (if fc.length = 0 then fa else fc) with hch
  have hchne : ch ≠ [] := by
    rw [hch]
    split
    case isTrue h0 =>
      rcases hfne with h | h
      · exact absurd (List.length_eq_zero.mp h0) h
      · exact h
    case isFalse h0 =>
      intro hnil
      rw [hnil] at h0
      simp at h0
  have hchdep : ∀ h ∈ ch, Hyp.depth h ≤ bs.max_len := by
    rw [hch]
    split
    · intro h hh; simpa using hfadep h hh
    · intro h hh; simpa using hfcdep h hh
  have hchlen : ch.length ≤ 2 * bs.beam_size - 1 := by
    rw [hch]
    split
    · omega
    · exact hfclen
  rcases beamFinalize_inv hln src bs.one_best hchne with
    ⟨outs, hfin, hlen, hmem, hpair⟩
  have hgen : BeamSearch.generate_output bs tr init src none = Except.ok outs := by
    rw [BeamSearch.generate_output]
    simp only [hloop]
    rw [← hch]
    simp only [hfin]
    simp
  refine ⟨outs, hgen, ?_, ?_, ?_, ?_, ?_⟩
  · rw [hlen]
    have hpos := List.length_pos.mpr hchne
    split
    · omega
    · omega
  · rw [hlen]
    split
    · omega
    · exact hchlen
  · intro o ho row hrow
    rcases hmem o ho with ⟨h, hh, hw, _, _, _, _⟩
    rw [hw] at hrow
    rcases List.mem_singleton.mp hrow with rfl
    rw [List.length_reverse, Hyp.backWords_length]
    exact hchdep h hh
  · intro h1
    rw [hlen, if_pos h1]
  · intro h1
    exact hpair

/-! ## Claim theorems -/

/-- C9 (amended): the stored unnormalized value of a `HypScore` equals the
supplied raw score whenever that raw score is nonzero; it defaults to the
normalized value when no raw score is supplied — and also, because of the
Python-falsiness of `0` in `unnormalized or normalized`, when the supplied
raw score is exactly 0. -/
theorem hypscore_c9 (K : Type) [Zero K] [DecidableEq K] (n u : K) :
    (u ≠ 0 → (HypScore.make n (some u)).unnormalized = u) ∧
    (HypScore.make n none).unnormalized = n ∧
    (HypScore.make n (some 0)).unnormalized = n := by
  refine ⟨fun h => ?_, rfl, ?_⟩ <;> simp [HypScore.make]
  exact fun h0 => absurd h0 h

/-- C9 witness: concrete application at `n = 3`, `u = 5`. -/
theorem hypscore_c9_witness :
    (5 : ℤ) ≠ 0 ∧ (HypScore.make (3 : ℤ) (some 5)).unnormalized = 5 :=
  ⟨by decide, (hypscore_c9 ℤ 3 5).1 (by decide)⟩

/-- C9 counterexample: a supplied raw score of 0 is not preserved — with
normalized value 5 and raw score 0 the stored unnormalized value is 5,
not the supplied 0. -/
theorem hypscore_c9_cex :
    (HypScore.make (5 : ℤ) (some 0)).unnormalized = 5 ∧ (5 : ℤ) ≠ 0 := by
  constructor
  · rfl
  · decide

/-- C3: combining a forced target with `beam_size ≥ 2` fails the `assert`
on line 128 — reported as the configuration error `assertionError`,
distinct from the runtime `indexError` — and the result does not depend on
the translator, initial state or source length, so no scorer call can have
been made; with `beam_size = 1` or no forced target, the assertion error
is never produced. -/
theorem beam_c3 :
    (∀ (K σ α : Type) [LinearOrderedRing K] (bs : BeamSearch K σ α)
      (tr tr' : Translator K σ α) (init init' : σ) (src src' : Option Nat)
      (f : List Word), 2 ≤ bs.beam_size →
      BeamSearch.generate_output bs tr init src (some f) =
        Except.error DecodeError.assertionError ∧
      BeamSearch.generate_output bs tr init src (some f) =
        BeamSearch.generate_output bs tr' init' src' (some f)) ∧
    (∀ (K σ α : Type) [LinearOrderedRing K] (bs : BeamSearch K σ α)
      (tr : Translator K σ α) (init : σ) (src : Option Nat)
      (forced : Option (List Word)), (forced = none ∨ bs.beam_size = 1) →
      BeamSearch.generate_output bs tr init src forced ≠
        Except.error DecodeError.assertionError) := by
  constructor
  · intro K σ α _ bs tr tr' init init' src src' f hb
    have hcond : ¬ ((some f : Option (List Word)) = none ∨ bs.beam_size = 1) := by
      rintro (h | h)
      · cases h
      · omega
    constructor
    · rw [BeamSearch.generate_output, if_pos hcond]
    · rw [BeamSearch.generate_output, if_pos hcond,
        BeamSearch.generate_output, if_pos hcond]
  · intro K σ α _ bs tr init src forced hcond
    rw [BeamSearch.generate_output, if_neg (not_not_intro hcond)]
    cases hlp : beamLoop tr bs.len_norm bs.beam_size forced init bs.max_len 0
        [Hyp.root] [] with
    | none => simp
    | some p =>
      rcases p with ⟨completed, active⟩
      cases hfin : beamFinalize bs.len_norm src bs.one_best
          (if completed.length = 0 then active else completed) with
      | none => simp [hfin]
      | some results => simp [hfin]

/-- C3 witness: concrete instantiations of both parts. -/
theorem beam_c3_witness :
    BeamSearch.generate_output (⟨2, 5, noNormZ, true⟩ : BeamSearch ℤ Nat Unit)
      bdemoTr 0 none (some [2, 1]) = Except.error DecodeError.assertionError ∧
    BeamSearch.generate_output (⟨1, 5, noNormZ, true⟩ : BeamSearch ℤ Nat Unit)
      bdemoTr 0 none (some [2, 1]) ≠ Except.error DecodeError.assertionError :=
  ⟨(beam_c3.1 ℤ Nat Unit ⟨2, 5, noNormZ, true⟩ bdemoTr bdemoTr 0 0 none none
      [2, 1] (by decide)).1,
    beam_c3.2 ℤ Nat Unit ⟨1, 5, noNormZ, true⟩ bdemoTr 0 none (some [2, 1])
      (Or.inr rfl)⟩

/-- C1 (amended): for every `beamSize ≥ 1`, every scorer with non-empty
distributions, and every length normalization satisfying its length
contract, free-decoding beam search succeeds and returns between 1 and
`2*beamSize - 1` SearchOutputs — the claimed upper bound `beamSize` does
not hold in general (see the counterexample), though `oneBest = true`
still yields exactly one output — each holding at most `maxLen` tokens,
and with `oneBest = false` the outputs are sorted descending by
normalized score. -/
theorem beam_c1_bounds [LinearOrderedRing K] (bs : BeamSearch K σ α)
    (tr : Translator K σ α) (init : σ) (src : Option Nat)
    (hbs : 1 ≤ bs.beam_size)
    (hne : ∀ w s, (tr.output_one_step w s).logsoftmax ≠ [])
    (hln : ∀ hyps src',
      (bs.len_norm.normalize_completed hyps src').length = hyps.length) :
    ∃ outs, BeamSearch.generate_output bs tr init src none = Except.ok outs ∧
      1 ≤ outs.length ∧ outs.length ≤ 2 * bs.beam_size - 1 ∧
      (∀ o ∈ outs, ∀ row ∈ o.word_ids, row.length ≤ bs.max_len) ∧
      (bs.one_best = true → outs.length = 1) ∧
      (bs.one_best = false →
        List.Pairwise (fun a b => headNorm b ≤ headNorm a) outs) :=
  beamGen_inv bs tr init src hbs hne hln

/-- C1 witness: the amended theorem applied to a concrete model with
`beamSize = 2`, `oneBest = false`. -/
theorem beam_c1_bounds_witness :
    ∃ outs, BeamSearch.generate_output
        (⟨2, 5, noNormZ, false⟩ : BeamSearch ℤ Nat Unit) bdemoTr 0 none none
        = Except.ok outs ∧
      1 ≤ outs.length ∧ outs.length ≤ 2 * 2 - 1 ∧
      (∀ o ∈ outs, ∀ row ∈ o.word_ids, row.length ≤ 5) ∧
      (false = true → outs.length = 1) ∧
      (false = false →
        List.Pairwise (fun a b => headNorm b ≤ headNorm a) outs) :=
  beam_c1_bounds ⟨2, 5, noNormZ, false⟩ bdemoTr 0 none (by decide)
    (fun w s => by simp [bdemoTr]) (fun hyps src' => by simp [noNormZ])

/-- C1 counterexample: with `beamSize = 3`, `maxLen = 10`,
`oneBest = false` and the scorer `cexTr`, `generate_output` returns 4
SearchOutputs — strictly more than `beamSize`, refuting the claimed
upper bound. -/
theorem beam_c1_cex :
    countOutputs (BeamSearch.generate_output
      (⟨3, 10, noNormZ, false⟩ : BeamSearch ℤ Nat Unit) cexTr 0 none none) = 4 ∧
    ¬ countOutputs (BeamSearch.generate_output
      (⟨3, 10, noNormZ, false⟩ : BeamSearch ℤ Nat Unit) cexTr 0 none none) ≤ 3 := by
  constructor
  · decide
  · decide

/-- C7: one expansion pass appends to the completed list exactly the
active hypotheses whose previous word is `</s>` (no translator call is
made for them: `expandOne`, the only place the translator is consulted,
is mapped only over the remaining hypotheses), and the accumulated
`new_set` consists of the children of those remaining hypotheses only, so
a finished hypothesis contributes no children. -/
theorem beam_c7 [LinearOrderedRing K] (tr : Translator K σ α)
    (ln : LenNorm K σ α) (bsz : Nat) (forced : Option (List Word)) (init : σ)
    (length : Nat) (active completed newSet c' ns' : List (Hyp K σ α))
    (h : beamExpand tr ln bsz forced init length active completed newSet
      = some (c', ns')) :
    c' = completed ++ active.filter (beamDone length) ∧
    ∃ css, mapOpt (expandOne tr ln bsz forced init length)
        (active.filter (fun h => ! beamDone length h)) = some css ∧
      ns' = newSet ++ css.flatten :=
  beamExpand_spec tr ln bsz forced init length h

/-- C7 witness: the expansion of one finished and one unfinished
hypothesis. -/
theorem beam_c7_witness :
    c7Res.1 = [] ++ [c7H1, c7H2].filter (beamDone 1) ∧
    ∃ css, mapOpt (expandOne bdemoTr noNormZ 2 none 0 1)
        ([c7H1, c7H2].filter (fun h => ! beamDone 1 h)) = some css ∧
      c7Res.2 = [] ++ css.flatten :=
  beam_c7 bdemoTr noNormZ 2 none 0 1 [c7H1, c7H2] [] [] c7Res.1 c7Res.2
    (by decide)

/-- C8: when the search loop ends with an empty completed list — no
hypothesis produced `</s>` within `maxLen` steps — `generate_output`
treats the final active frontier as the completed set: the returned value
is exactly the finalization of that frontier, and it is a non-empty
well-formed output list, not an error. -/
theorem beam_c8 [LinearOrderedRing K] (bs : BeamSearch K σ α)
    (tr : Translator K σ α) (init : σ) (src : Option Nat)
    (fa : List (Hyp K σ α))
    (hbs : 1 ≤ bs.beam_size)
    (hne : ∀ w s, (tr.output_one_step w s).logsoftmax ≠ [])
    (hln : ∀ hyps src',
      (bs.len_norm.normalize_completed hyps src').length = hyps.length)
    (hloop : beamLoop tr bs.len_norm bs.beam_size none init bs.max_len 0
      [Hyp.root] [] = some ([], fa)) :
    ∃ outs, beamFinalize bs.len_norm src bs.one_best fa = some outs ∧
      BeamSearch.generate_output bs tr init src none = Except.ok outs ∧
      1 ≤ outs.length := by
  rcases beamLoop_inv tr bs.len_norm init hbs hne bs.max_len 0 [Hyp.root] []
      (by intro h hh; simp at hh; subst hh; rfl) (by simpa using hbs)
      (by intro h hh; simp at hh) (by simp) (Or.inl (by simp)) with
    ⟨fc', fa', hloop', _, _, _, _, hfne⟩
  rw [hloop] at hloop'
  have hpq := Option.some_inj.mp hloop'
  have hfc : fc' = [] := ((Prod.mk.injEq _ _ _ _).mp hpq).1.symm
  have hfa : fa' = fa := ((Prod.mk.injEq _ _ _ _).mp hpq).2.symm
  rw [hfc, hfa] at hfne
  have hfane : fa ≠ [] := by
    rcases hfne with h | h
    · exact absurd rfl h
    · exact h
  rcases beamFinalize_inv hln src bs.one_best hfane with
    ⟨outs, hfin, hlen, _, _⟩
  refine ⟨outs, hfin, ?_, ?_⟩
  · rw [BeamSearch.generate_output]
    simp only [hloop]
    simp [hfin]
  · rw [hlen]
    have := List.length_pos.mpr hfane
    split <;> omega

theorem beamFinalize_fields [LinearOrderedRing K] {ln : LenNorm K σ α}
    {src : Option Nat} {oneBest : Bool} {ch : List (Hyp K σ α)}
    {outs : List (BeamOut K σ α)}
    (h : beamFinalize ln src oneBest ch = some outs) :
    ∀ o ∈ outs, o.logsoftmaxes = [] ∧ o.state = [] ∧ o.mask = none := by
  cases oneBest with
  | false =>
    simp only [beamFinalize, Bool.false_eq_true, if_false, Option.bind_eq_bind,
      Option.some_bind, Option.some_inj] at h
    subst h
    intro o ho
    rcases List.mem_map.mp ho with ⟨p, _, rfl⟩
    exact ⟨rfl, rfl, rfl⟩
  | true =>
    cases hhs : sortDesc (fun p => p.2) (ch.zip (ln.normalize_completed ch src)) with
    | nil =>
      rw [beamFinalize, hhs] at h
      simp at h
    | cons x t =>
      rw [beamFinalize, hhs] at h
      simp only [if_true, List.head?_cons, Option.map_some', Option.bind_eq_bind,
        Option.some_bind, Option.some_inj] at h
      subst h
      intro o ho
      rcases List.mem_map.mp ho with ⟨p, _, rfl⟩
      exact ⟨rfl, rfl, rfl⟩

/-- C10: every SearchOutput produced by `BeamSearch.generate_output` has
an empty per-step log-probability list, an empty per-step state list and
mask `None`, regardless of how many tokens were generated; greedy and
sampling outputs in contrast always carry a non-empty mask list. -/
theorem beam_c10 :
    (∀ (K σ α : Type) [LinearOrderedRing K] (bs : BeamSearch K σ α)
      (tr : Translator K σ α) (init : σ) (src : Option Nat)
      (forced : Option (List Word)) (outs : List (BeamOut K σ α)),
      BeamSearch.generate_output bs tr init src forced = Except.ok outs →
      ∀ o ∈ outs, o.logsoftmaxes = [] ∧ o.state = [] ∧ o.mask = none) ∧
    (∀ (K σ α : Type) [LinearOrderedRing K] (gs : GreedySearch)
      (tr : BTranslator K σ α) (init : σ) (forced : Option ForcedTrg)
      (outs : List (GreedyOut K σ α)),
      GreedySearch.generate_output gs tr init forced = some outs →
      ∀ o ∈ outs, o.mask ≠ []) ∧
    (∀ (K σ α : Type) [LinearOrderedRing K] (ss : SamplingSearch)
      (tr : BTranslator K σ α) (init : σ)
      (forced : Option (List (List Word))) (rng : Nat → List Word)
      (o : GreedyOut K σ α),
      SamplingSearch.sample_one ss tr init forced rng = some o →
      o.mask ≠ []) := by
  refine ⟨?_, ?_, ?_⟩
  · intro K σ α _ bs tr init src forced outs h
    rw [BeamSearch.generate_output] at h
    split at h
    · cases h
    · cases hlp : beamLoop tr bs.len_norm bs.beam_size forced init bs.max_len 0
          [Hyp.root] [] with
      | none => rw [hlp] at h; cases h
      | some p =>
        rcases p with ⟨completed, active⟩
        rw [hlp] at h
        simp only at h
        cases hfin : beamFinalize bs.len_norm src bs.one_best
            (if completed.length = 0 then active else completed) with
        | none => rw [hfin] at h; cases h
        | some results =>
          rw [hfin] at h
          simp only [Except.ok.injEq] at h
          subst h
          exact beamFinalize_fields hfin
  · intro K σ α _ gs tr init forced outs h
    rw [GreedySearch.generate_output] at h
    cases hacc : greedyLoop tr forced gs.max_len (greedyInit init) with
    | none => rw [hacc] at h; cases h
    | some acc =>
      rw [hacc] at h
      simp only [Option.bind_eq_bind, Option.some_bind] at h
      cases hds : acc.done with
      | none => rw [hds] at h; cases h
      | some ds =>
        rw [hds] at h
        simp only [Option.some_bind] at h
        cases hw : stackCols acc.word_ids with
        | none => rw [hw] at h; cases h
        | some words =>
          rw [hw] at h
          simp only [Option.some_bind] at h
          cases hsc : sumAxis0 acc.score with
          | none => rw [hsc] at h; cases h
          | some score =>
            rw [hsc] at h
            simp only [Option.some_bind, Option.some_inj] at h
            subst h
            intro o ho
            rcases List.mem_singleton.mp ho with rfl
            simp
  · intro K σ α _ ss tr init forced rng o h
    rw [SamplingSearch.sample_one] at h
    cases hacc : sampleLoop tr forced rng ss.max_length (sampleInit init) with
    | none => rw [hacc] at h; cases h
    | some acc =>
      rw [hacc] at h
      simp only [Option.bind_eq_bind, Option.some_bind] at h
      cases hsc : sumAxis0 acc.logsofts with
      | none => rw [hsc] at h; cases h
      | some scores =>
        rw [hsc] at h
        simp only [Option.some_bind] at h
        cases hds : acc.done with
        | none => rw [hds] at h; cases h
        | some ds =>
          rw [hds] at h
          simp only [Option.some_bind] at h
          cases hst : stackCols acc.samples with
          | none => rw [hst] at h; cases h
          | some samples =>
            rw [hst] at h
            simp only [Option.some_bind, Option.some_inj] at h
            subst h
            simp

/-- C10 witness: concrete instantiations applied to a one-best beam run
and a greedy run. -/
theorem beam_c10_witness :
    (∀ o ∈ c10BeamOuts, o.logsoftmaxes = [] ∧ o.state = [] ∧ o.mask = none) ∧
    (∀ o ∈ c5Outs, o.mask ≠ []) :=
  ⟨beam_c10.1 ℤ Nat Unit ⟨2, 5, noNormZ, true⟩ bdemoTr 0 none none c10BeamOuts
      (by rfl),
    beam_c10.2.1 ℤ Nat Unit ⟨5⟩ gdemoTr 0 none c5Outs (by rfl)⟩

theorem expandOne_eq [LinearOrderedRing K] (tr : Translator K σ α)
    (ln : LenNorm K σ α) (bsz : Nat) (forced : Option (List Word)) (init : σ)
    {t : Nat} {h : Hyp K σ α} (hdep : Hyp.depth h = t) :
    ∃ st, (if t = 0 then some init else Hyp.stateOpt h) = some st ∧
      expandOne tr ln bsz forced init t h
        = hypChildren ln bsz forced t
          (tr.output_one_step (if t = 0 then none else Hyp.word h) st) h := by
  by_cases h0 : t = 0
  · refine ⟨init, by simp [h0], ?_⟩
    rw [expandOne, if_pos h0]
    simp
  · cases h with
    | root => simp [Hyp.depth] at hdep; omega
    | node s o p w u =>
      refine ⟨o.state, by simp [h0, Hyp.stateOpt], ?_⟩
      rw [expandOne, if_neg h0]
      simp [Hyp.stateOpt]

theorem expandOne_forced [LinearOrderedRing K] (tr : Translator K σ α)
    (ln : LenNorm K σ α) (bsz : Nat) (init : σ) {f : List Word} {t : Nat}
    (hcov : ∀ w s x, x ∈ f → x < (tr.output_one_step w s).logsoftmax.length)
    (htf : t < f.length) {h : Hyp K σ α} (hdep : Hyp.depth h = t) :
    ∃ sc out u, expandOne tr ln bsz (some f) init t h
      = some [Hyp.node sc out h (f.getD t 0) u] := by
  rcases expandOne_eq tr ln bsz (some f) init hdep with ⟨st, hst, hexp⟩
  have hmem : f.getD t 0 ∈ f := by
    rw [List.getD_eq_getElem _ _ htf]
    exact List.getElem_mem htf
  have hvlt : f.getD t 0 <
      (tr.output_one_step (if t = 0 then none else Hyp.word h) st).logsoftmax.length :=
    hcov _ _ _ hmem
  have hsw := List.get?_eq_get hvlt
  have hft : f.get? t = some (f.getD t 0) := by
    rw [List.get?_eq_get htf, List.get_eq_getElem, List.getD_eq_getElem _ _ htf]
  refine ⟨ln.normalize_one (Hyp.score h)
      ((tr.output_one_step (if t = 0 then none else Hyp.word h) st).logsoftmax.get
        ⟨f.getD t 0, hvlt⟩) (t + 1),
    tr.output_one_step (if t = 0 then none else Hyp.word h) st,
    ((tr.output_one_step (if t = 0 then none else Hyp.word h) st).logsoftmax.get
      ⟨f.getD t 0, hvlt⟩) + Hyp.unnormalized h, ?_⟩
  rw [hexp, hypChildren]
  simp only [hft, Option.map_some', Option.bind_eq_bind, Option.some_bind, mapOpt, hsw]

theorem beamLoop_forced_seg [LinearOrderedRing K] (tr : Translator K σ α)
    (ln : LenNorm K σ α) (init : σ) {f : List Word} {p maxLen : Nat}
    (hp : f.get? p = some Vocab.ES)
    (hfirst : ∀ j, j < p → f.getD j 0 ≠ Vocab.ES)
    (hcov : ∀ w s x, x ∈ f → x < (tr.output_one_step w s).logsoftmax.length)
    (hpl : p < maxLen) :
    ∀ (n t : Nat) (h : Hyp K σ α) (fuel : Nat),
      fuel + t = maxLen → t + n = p + 1 →
      Hyp.depth h = t →
      Hyp.backWords h = (f.take t).reverse →
      Hyp.word h = (if t = 0 then none else some (f.getD (t - 1) 0)) →
      ∃ ch : Hyp K σ α,
        (beamLoop tr ln 1 (some f) init fuel t [h] [] = some ([ch], []) ∨
         beamLoop tr ln 1 (some f) init fuel t [h] [] = some ([], [ch])) ∧
        Hyp.backWords ch = (f.take (p + 1)).reverse
  | 0, t, h, fuel, hfuel, htn, hdep, hback, hword => by
    have ht : t = p + 1 := by omega
    subst ht
    have hES : f[p]? = some Vocab.ES := by
      rw [← List.get?_eq_getElem?]
      exact hp
    cases fuel with
    | zero => exact ⟨h, Or.inr (by rw [beamLoop]), hback⟩
    | succ m =>
      have hdone : beamDone (p + 1) h = true := by
        rw [beamDone]
        simp [hword, hES]
      have hbe : beamExpand tr ln 1 (some f) init (p + 1) [h] [] []
          = some ([h], []) := by
        simp [beamExpand, hdone]
      have hstep : beamLoop tr ln 1 (some f) init (m + 1) (p + 1) [h] []
          = beamLoop tr ln 1 (some f) init m (p + 2) [] [h] := by
        rw [beamLoop, if_neg (by simp)]
        simp only [hbe, Option.bind_eq_bind, Option.some_bind]
        simp [sortDesc]
      have hfin : beamLoop tr ln 1 (some f) init m (p + 2) [] [h]
          = some ([h], []) := by
        cases m with
        | zero => rw [beamLoop]
        | succ m' => rw [beamLoop, if_pos (by simp)]
      exact ⟨h, Or.inl (hstep.trans hfin), hback⟩
  | n + 1, t, h, fuel, hfuel, htn, hdep, hback, hword => by
    have htp : t ≤ p := by omega
    obtain ⟨m, rfl⟩ : ∃ m, fuel = m + 1 := ⟨fuel - 1, by omega⟩
    have hplen : p < f.length := by
      rcases List.get?_eq_some.mp hp with ⟨hl, _⟩
      exact hl
    have htlen : t < f.length := by omega
    have hndone : beamDone t h = false := by
      rw [beamDone]
      by_cases h0 : t = 0
      · simp [h0]
      · simp only [h0, if_false, hword, if_neg h0]
        simp only [decide_eq_false_iff_not, Option.some_inj]
        have := hfirst (t - 1) (by omega)
        intro hcon
        exact this hcon
    rcases expandOne_forced tr ln 1 init hcov htlen hdep with ⟨sc, out, u, hexp⟩
    have hbe : beamExpand tr ln 1 (some f) init t [h] [] []
        = some ([], [Hyp.node sc out h (f.getD t 0) u]) := by
      simp [beamExpand, hndone, hexp]
    have hstep : beamLoop tr ln 1 (some f) init (m + 1) t [h] []
        = beamLoop tr ln 1 (some f) init m (t + 1)
            [Hyp.node sc out h (f.getD t 0) u] [] := by
      rw [beamLoop, if_neg (by simp)]
      simp only [hbe, Option.bind_eq_bind, Option.some_bind]
      simp [sortDesc, insDesc]
    rcases beamLoop_forced_seg tr ln init hp hfirst hcov hpl n (t + 1)
        (Hyp.node sc out h (f.getD t 0) u) m (by omega) (by omega)
        (by simp [Hyp.depth, hdep])
        (by
          simp only [Hyp.backWords, hback]
          rw [List.take_succ]
          have hft : f[t]? = some (f.getD t 0) := by
            rw [List.getElem?_eq_getElem htlen, List.getD_eq_getElem _ _ htlen]
          rw [hft]
          simp)
        (by simp [Hyp.word]) with ⟨ch, hch, hchback⟩
    refine ⟨ch, ?_, hchback⟩
    rw [hstep]
    exact hch

/-- C4 (amended): with `beamSize = 1` and a forced target whose first
end-of-sequence token sits at position `p < maxLen`, beam search (for any
scorer whose distributions cover the forced ids, and any length
normalization meeting its contract) returns exactly one SearchOutput
whose token sequence is the forced sequence up to and including that
first `</s>`.  The original claim quantified over *every* forced
sequence; a forced sequence with no `</s>` among its first `maxLen`
positions makes the call fail with an index error (or truncate at
`maxLen`) instead — see the counterexample. -/
theorem beam_c4_forced [LinearOrderedRing K] (bs : BeamSearch K σ α)
    (tr : Translator K σ α) (init : σ) (src : Option Nat) (f : List Word)
    (p : Nat)
    (hb1 : bs.beam_size = 1)
    (hp : f.get? p = some Vocab.ES)
    (hfirst : ∀ j, j < p → f.getD j 0 ≠ Vocab.ES)
    (hpl : p < bs.max_len)
    (hcov : ∀ w s x, x ∈ f → x < (tr.output_one_step w s).logsoftmax.length)
    (hln : ∀ hyps src',
      (bs.len_norm.normalize_completed hyps src').length = hyps.length) :
    ∃ outs, BeamSearch.generate_output bs tr init src (some f) = Except.ok outs ∧
      outs.length = 1 ∧ ∀ o ∈ outs, o.word_ids = [f.take (p + 1)] := by
  rcases beamLoop_forced_seg tr bs.len_norm init hp hfirst hcov hpl
      (p + 1) 0 Hyp.root bs.max_len (by omega) (by omega) rfl
      (by simp [Hyp.backWords]) (by simp [Hyp.word]) with ⟨ch, hch, hchback⟩
  have hchne : ([ch] : List (Hyp K σ α)) ≠ [] := by simp
  rcases beamFinalize_inv hln src bs.one_best hchne with ⟨outs, hfin, hlen, hmem, _⟩
  refine ⟨outs, ?_, ?_, ?_⟩
  · rw [BeamSearch.generate_output, if_neg (by simp [hb1]), hb1]
    rcases hch with hch | hch
    · simp only [hch]
      simp [hfin]
    · simp only [hch]
      simp [hfin]
  · rw [hlen]
    split <;> simp
  · intro o ho
    rcases hmem o ho with ⟨hh, hhmem, hw, _, _, _, _⟩
    rcases List.mem_singleton.mp hhmem with rfl
    rw [hw, hchback]
    simp

/-- C4 witness: forced target `[2, 1]` (first `</s>` at position 1) with
`beamSize = 1` reproduces exactly `[2, 1]`. -/
theorem beam_c4_forced_witness :
    ∃ outs, BeamSearch.generate_output
        (⟨1, 5, noNormZ, true⟩ : BeamSearch ℤ Nat Unit) bdemoTr 0 none
        (some [2, 1]) = Except.ok outs ∧
      outs.length = 1 ∧ ∀ o ∈ outs, o.word_ids = [[2, 1].take 2] :=
  beam_c4_forced ⟨1, 5, noNormZ, true⟩ bdemoTr 0 none [2, 1] 1 rfl (by decide)
    (by decide) (by decide)
    (fun w s x hx => by fin_cases hx <;> simp [bdemoTr])
    (fun hyps src' => by simp [noNormZ])

/-- C4 counterexample: the forced target `[2, 2]` contains no
end-of-sequence token; with `beamSize = 1` and `maxLen = 3` the third
step indexes past the forced sequence and the call raises an index error
— it returns no SearchOutput at all, refuting the claim for this forced
sequence and scorer. -/
theorem beam_c4_cex :
    decodeErr (BeamSearch.generate_output
      (⟨1, 3, noNormZ, true⟩ : BeamSearch ℤ Nat Unit) bdemoTr 0 none
      (some [2, 2])) = some DecodeError.indexError ∧
    countOutputs (BeamSearch.generate_output
      (⟨1, 3, noNormZ, true⟩ : BeamSearch ℤ Nat Unit) bdemoTr 0 none
      (some [2, 2])) = 0 := by
  constructor
  · decide
  · decide

/-! ### Structure of one greedy step -/

theorem all_map_id (f : γ → Bool) :
    ∀ l : List γ, ((l.map f).all fun b => b) = l.all f
  | [] => rfl
  | x :: xs => by simp [List.all_cons, all_map_id f xs]

theorem greedyStep_spec [LinearOrderedRing K] {tr : BTranslator K σ α}
    {forced : Option ForcedTrg} {acc acc' : GreedyAcc K σ α}
    (h : greedyStep tr forced acc = some acc') :
    ∃ w s,
      acc'.word_ids = acc.word_ids ++ [w] ∧
      acc'.score = acc.score ++ [s] ∧
      acc'.done = some (w.map (fun x => decide (x = Vocab.ES))) ∧
      GreedyAcc.allDone acc' = allES w ∧
      s.length = w.length ∧
      (acc.done = none → acc'.masks = acc.masks) ∧
      (∀ ds, acc.done = some ds →
        acc'.masks = acc.masks ++ [ds.map (fun d => if d then (0 : Nat) else 1)] ∧
        w.length = ds.length ∧
        (∀ i, ds.getD i false = true →
          w.getD i 0 = Vocab.ES ∧ s.getD i (1 : K) = 0)) := by
  rw [greedyStep] at h
  cases hch : greedyChoose forced
      (tr.output_one_step acc.word_ids.getLast? acc.current_state).logsoftmax
      acc.word_ids.length with
  | none => rw [hch] at h; cases h
  | some word_id0 =>
    rw [hch] at h
    simp only [Option.bind_eq_bind, Option.some_bind] at h
    cases hpb : pickBatch
        (tr.output_one_step acc.word_ids.getLast? acc.current_state).logsoftmax
        word_id0 with
    | none => rw [hpb] at h; cases h
    | some logsoft0 =>
      rw [hpb] at h
      simp only [Option.some_bind] at h
      cases hdone : acc.done with
      | none =>
        rw [hdone] at h
        simp only [Option.some_bind] at h
        simp only [Option.some_inj] at h
        subst h
        refine ⟨word_id0, logsoft0, rfl, rfl, rfl, ?_, ?_, ?_, ?_⟩
        · simp only [GreedyAcc.allDone, allES]
          exact all_map_id _ _
        · exact (pickBatch_some hpb).1
        · intro _; rfl
        · intro ds hds; cases hds
      | some ds =>
        rw [hdone] at h
        simp only [Option.some_bind] at h
        cases hwd : mapOpt (fun i => (ds.get? i).bind
            fun d => if d = true then some Vocab.ES else word_id0.get? i)
            (List.range ds.length) with
        | none => rw [hwd] at h; cases h
        | some w =>
          rw [hwd] at h
          simp only [Option.bind_eq_bind, Option.some_bind] at h
          cases hpk : pickBatch
              (tr.output_one_step acc.word_ids.getLast? acc.current_state).logsoftmax
              w with
          | none => rw [hpk] at h; cases h
          | some picked =>
            rw [hpk] at h
            simp only [Option.some_bind, Option.some_inj] at h
            subst h
            have hwlen : w.length = ds.length := by
              rw [mapOpt_length _ hwd, List.length_range]
            have hl0len : logsoft0.length = word_id0.length := (pickBatch_some hpb).1
            have hdlen : (tr.output_one_step acc.word_ids.getLast?
                acc.current_state).logsoftmax.length = word_id0.length :=
              (pickBatch_some hpb).2
            have hdlen2 : (tr.output_one_step acc.word_ids.getLast?
                acc.current_state).logsoftmax.length = w.length :=
              (pickBatch_some hpk).2
            have hl0w : logsoft0.length = ds.length := by omega
            refine ⟨w, List.zipWith (fun (x : K) (m : Nat) => x * (m : K)) logsoft0
              (ds.map (fun d => if d then (0 : Nat) else 1)), rfl, rfl, rfl, ?_,
              ?_, ?_, ?_⟩
            · simp only [GreedyAcc.allDone, allES]
              exact all_map_id _ _
            · rw [List.length_zipWith, List.length_map]
              omega
            · intro hcon; cases hcon
            · intro ds' hds'
              rcases Option.some_inj.mp hds' with rfl
              refine ⟨rfl, hwlen, ?_⟩
              intro i hdi
              have hilt : i < ds.length := by
                by_contra hge
                rw [List.getD_eq_default _ _ (by omega)] at hdi
                cases hdi
              have hdi' : ds[i] = true := by
                rw [List.getD_eq_getElem _ _ hilt] at hdi
                exact hdi
              constructor
              · have hrg : (List.range ds.length).get? i = some i := by
                  rw [List.get?_eq_get (by simpa using hilt)]
                  simp
                have hwi := mapOpt_get _ hwd i i hrg
                have hdsi : ds.get? i = some true := by
                  rw [List.get?_eq_get hilt, List.get_eq_getElem, hdi']
                rw [hdsi] at hwi
                simp only [Option.some_bind, if_true] at hwi
                rw [List.getD_eq_getD_get?, hwi]
                rfl
              · have hizip : i < (List.zipWith (fun (x : K) (m : Nat) => x * (m : K))
                    logsoft0 (ds.map (fun d => if d then (0 : Nat) else 1))).length := by
                  rw [List.length_zipWith, List.length_map]
                  omega
                rw [List.getD_eq_getElem _ _ hizip]
                rw [List.getElem_zipWith]
                have himap : i < (ds.map (fun d => if d then (0 : Nat) else 1)).length := by
                  rw [List.length_map]
                  exact hilt
                have hmi : (ds.map (fun d => if d then (0 : Nat) else 1))[i] = 0 := by
                  rw [List.getElem_map, hdi']
                  rfl
                rw [hmi]
                simp

theorem greedyLoop_words [LinearOrderedRing K] (tr : BTranslator K σ α)
    (forced : Option ForcedTrg) :
    ∀ (fuel : Nat) (acc acc' : GreedyAcc K σ α),
      greedyLoop tr forced fuel acc = some acc' →
      ∃ new, acc'.word_ids = acc.word_ids ++ new ∧
        new.length ≤ fuel ∧
        (1 ≤ fuel → 1 ≤ new.length) ∧
        (∀ j, j + 1 < new.length → allES (new.getD j []) = false) ∧
        (new.length < fuel → ∃ w, new.getLast? = some w ∧ allES w = true)
  | 0, acc, acc', h => by
    rw [greedyLoop] at h
    rcases Option.some_inj.mp h with rfl
    refine ⟨[], by simp, by simp, ?_, ?_, ?_⟩
    · intro h0; exact absurd h0 (by omega)
    · intro j hj; simp at hj
    · intro h0; simp at h0
  | fuel + 1, acc, acc', h => by
    rw [greedyLoop] at h
    cases hstep : greedyStep tr forced acc with
    | none => rw [hstep] at h; cases h
    | some acc1 =>
      rw [hstep] at h
      simp only [Option.bind_eq_bind, Option.some_bind] at h
      rcases greedyStep_spec hstep with ⟨w, s, hw, hs, hdone1, hall, _, _, _⟩
      by_cases hd : GreedyAcc.allDone acc1 = true
      · rw [if_pos hd] at h
        rcases Option.some_inj.mp h with rfl
        refine ⟨[w], by simpa using hw, by simp, by simp, ?_, ?_⟩
        · intro j hj; simp at hj
        · intro _
          exact ⟨w, by simp, by rw [← hall]; exact hd⟩
      · rw [if_neg hd] at h
        rcases greedyLoop_words tr forced fuel acc1 acc' h with
          ⟨new, hnew, hlen, hpos, hmid, hlast⟩
        refine ⟨w :: new, ?_, ?_, ?_, ?_, ?_⟩
        · rw [hnew, hw]; simp
        · simp only [List.length_cons]; omega
        · intro _; simp
        · intro j hj
          cases j with
          | zero =>
            rw [List.getD_cons_zero]
            rw [← hall]
            exact Bool.not_eq_true _ |>.mp hd
          | succ j' =>
            rw [List.getD_cons_succ]
            apply hmid
            simp only [List.length_cons] at hj
            omega
        · intro hlt
          simp only [List.length_cons] at hlt
          rcases hlast (by omega) with ⟨wl, hwl, hwles⟩
          have hne : new ≠ [] := by
            intro h0
            rw [h0] at hwl
            cases hwl
          refine ⟨wl, ?_, hwles⟩
          have : w :: new = [w] ++ new := rfl
          rw [this, List.getLast?_append_of_ne_nil _ hne]
          exact hwl

theorem stackCols_facts {cols rows : List (List Word)}
    (h : stackCols cols = some rows) :
    cols ≠ [] ∧ ∀ r ∈ rows, r.length = cols.length := by
  cases cols with
  | nil => cases h
  | cons c cs =>
    rw [stackCols] at h
    constructor
    · simp
    · split at h
      case isTrue hall =>
        rcases Option.some_inj.mp h with rfl
        intro r hr
        rcases List.mem_map.mp hr with ⟨i, _, rfl⟩
        simp
      case isFalse => cases h

/-- C5 (amended): on every input on which it succeeds,
`GreedySearch.generate_output` returns exactly one SearchOutput, whose
token rows all have length at most `maxLen`, and the underlying loop ran
between 1 and `maxLen` steps, never continuing past a step whose recorded
words are all `</s>` (every non-final step is not all-`</s>`, and if the
loop stopped before `maxLen` its final step is all-`</s>`).  The original
claim's "for every input" fails: a forced target exhausted before the
loop ends makes the source raise an `IndexError` instead of returning a
SearchOutput — see the counterexample. -/
theorem greedy_c5 [LinearOrderedRing K] (gs : GreedySearch)
    (tr : BTranslator K σ α) (init : σ) (forced : Option ForcedTrg)
    (outs : List (GreedyOut K σ α))
    (h : GreedySearch.generate_output gs tr init forced = some outs) :
    outs.length = 1 ∧
    (∀ o ∈ outs, ∀ row ∈ o.word_ids, row.length ≤ gs.max_len) ∧
    ∃ acc, greedyLoop tr forced gs.max_len (greedyInit init) = some acc ∧
      1 ≤ acc.word_ids.length ∧ acc.word_ids.length ≤ gs.max_len ∧
      (∀ j, j + 1 < acc.word_ids.length →
        allES (acc.word_ids.getD j []) = false) ∧
      (acc.word_ids.length < gs.max_len →
        ∃ w, acc.word_ids.getLast? = some w ∧ allES w = true) := by
  rw [GreedySearch.generate_output] at h
  cases hacc : greedyLoop tr forced gs.max_len (greedyInit init) with
  | none => rw [hacc] at h; cases h
  | some acc =>
    rw [hacc] at h
    simp only [Option.bind_eq_bind, Option.some_bind] at h
    cases hds : acc.done with
    | none => rw [hds] at h; cases h
    | some ds =>
      rw [hds] at h
      simp only [Option.some_bind] at h
      cases hw : stackCols acc.word_ids with
      | none => rw [hw] at h; cases h
      | some words =>
        rw [hw] at h
        simp only [Option.some_bind] at h
        cases hsc : sumAxis0 acc.score with
        | none => rw [hsc] at h; cases h
        | some score =>
          rw [hsc] at h
          simp only [Option.some_bind, Option.some_inj] at h
          subst h
          rcases greedyLoop_words tr forced gs.max_len (greedyInit init) acc
            hacc with ⟨new, hnew, hlen, _, hmid, hlast⟩
          have hnew' : acc.word_ids = new := by
            simpa [greedyInit] using hnew
          rcases stackCols_facts hw with ⟨hcne, hrows⟩
          have hk1 : 1 ≤ acc.word_ids.length := List.length_pos.mpr hcne
          have hkm : acc.word_ids.length ≤ gs.max_len := by
            rw [hnew']; exact hlen
          refine ⟨by simp, ?_, acc, rfl, hk1, hkm, ?_, ?_⟩
          · intro o ho row hrow
            rcases List.mem_singleton.mp ho with rfl
            have := hrows row (by simpa using hrow)
            omega
          · intro j hj
            rw [hnew'] at hj ⊢
            exact hmid j hj
          · intro hlt
            rw [hnew'] at hlt ⊢
            exact hlast hlt

/-- C5 witness: the concrete run of `gdemoTr` (words 3, 3, `</s>`). -/
theorem greedy_c5_witness :
    c5Outs.length = 1 ∧
    (∀ o ∈ c5Outs, ∀ row ∈ o.word_ids, row.length ≤ 5) ∧
    ∃ acc, greedyLoop gdemoTr none 5 (greedyInit 0) = some acc ∧
      1 ≤ acc.word_ids.length ∧ acc.word_ids.length ≤ 5 ∧
      (∀ j, j + 1 < acc.word_ids.length →
        allES (acc.word_ids.getD j []) = false) ∧
      (acc.word_ids.length < 5 →
        ∃ w, acc.word_ids.getLast? = some w ∧ allES w = true) :=
  greedy_c5 ⟨5⟩ gdemoTr 0 none c5Outs (by rfl)

/-- C5 counterexample: with `maxLen = 3` and the non-batched forced
target `[0]` (no `</s>`, shorter than the loop), the second step
evaluates `forced_trg_ids[1]` past the end of the sequence: the call
raises instead of returning exactly one SearchOutput. -/
theorem greedy_c5_cex :
    GreedySearch.generate_output (⟨3⟩ : GreedySearch) gdemoTr 0
      (some (ForcedTrg.single [0]))
      = (none : Option (List (GreedyOut ℤ Nat Unit))) := by
  decide

theorem greedyStep_inv [LinearOrderedRing K] {tr : BTranslator K σ α}
    {forced : Option ForcedTrg} {acc acc' : GreedyAcc K σ α} {B : Nat}
    (hinv : GreedyInv acc B) (h : greedyStep tr forced acc = some acc') :
    ∃ B', GreedyInv acc' B' := by
  rcases greedyStep_spec h with ⟨w, s, hw, hs, hdone', hall, hslen, hmn, hms⟩
  cases hdone : acc.done with
  | none =>
    rcases hinv.dnone hdone with ⟨hw0, hs0, hm0⟩
    have hmk := hmn hdone
    refine ⟨w.length, ?_⟩
    constructor
    · intro w' hw'
      rw [hw, hw0] at hw'
      simp at hw'
      rw [hw']
    · intro s' hs'
      rw [hs, hs0] at hs'
      simp at hs'
      rw [hs', hslen]
    · intro mk hmk'
      rw [hmk, hm0] at hmk'
      simp at hmk'
    · intro ds hds
      rw [hdone'] at hds
      rcases Option.some_inj.mp hds with rfl
      simp
    · intro hcon
      rw [hdone'] at hcon
      cases hcon
    · intro ds hds
      rw [hdone'] at hds
      rcases Option.some_inj.mp hds with rfl
      exact ⟨w, by rw [hw, hw0]; simp, rfl⟩
    · rw [hw, hs, hw0, hs0]
      simp [hslen]
    · intro _
      rw [hw, hmk, hw0, hm0]
      simp
    · intro k m i hkm hm hES
      rw [hw, hw0] at hm
      simp at hm
      omega
  | some ds =>
    rcases hms ds hdone with ⟨hmk, hwB, hper⟩
    have hB : ds.length = B := hinv.dlen ds hdone
    rcases hinv.dlast ds hdone with ⟨wl, hwl, hdswl⟩
    have hwne : acc.word_ids ≠ [] := by
      intro h0
      rw [h0] at hwl
      cases hwl
    have hmalign := hinv.malign hwne
    set M := acc.word_ids.length with hM
    have hwlget : acc.word_ids.getD (M - 1) [] = wl := by
      have h1 : acc.word_ids.getLast? = acc.word_ids[M - 1]? :=
        List.getLast?_eq_getElem? _
      rw [h1] at hwl
      have hlt : M - 1 < M := by
        have := List.length_pos.mpr hwne
        omega
      rw [List.getD_eq_getElem _ _ hlt]
      rw [List.getElem?_eq_getElem hlt] at hwl
      exact Option.some_inj.mp hwl
    have hwlB : wl.length = B := hinv.wlen wl (by
      have hlt : M - 1 < M := by
        have := List.length_pos.mpr hwne
        omega
      rw [← hwlget]
      rw [List.getD_eq_getElem _ _ hlt]
      exact List.getElem_mem hlt)
    have hdsmask : ∀ i, i < B → ds.getD i false = true →
        ((ds.map (fun d => if d then (0 : Nat) else 1)).getD i 1 = 0) := by
      intro i hiB hdi
      have hilt : i < ds.length := by omega
      have hd' : ds[i] = true := by
        rw [List.getD_eq_getElem _ _ hilt] at hdi
        exact hdi
      have hmlt : i < (ds.map (fun d => if d then (0 : Nat) else 1)).length := by
        rw [List.length_map]; omega
      rw [List.getD_eq_getElem _ _ hmlt, List.getElem_map, hd']
      rfl
    have hESds : ∀ i, wl.getD i 0 = Vocab.ES → ds.getD i false = true := by
      intro i hwli
      have hiwl : i < wl.length := by
        by_contra hge
        rw [List.getD_eq_default _ _ (by omega)] at hwli
        cases hwli
      rw [hdswl]
      have hmlt : i < (wl.map (fun x => decide (x = Vocab.ES))).length := by
        rw [List.length_map]; omega
      rw [List.getD_eq_getElem _ _ hmlt, List.getElem_map]
      rw [List.getD_eq_getElem _ _ hiwl] at hwli
      simp [hwli]
    refine ⟨B, ?_⟩
    constructor
    · intro w' hw'
      rw [hw] at hw'
      rcases List.mem_append.mp hw' with hw' | hw'
      · exact hinv.wlen w' hw'
      · rcases List.mem_singleton.mp hw' with rfl
        omega
    · intro s' hs'
      rw [hs] at hs'
      rcases List.mem_append.mp hs' with hs' | hs'
      · exact hinv.slen s' hs'
      · rcases List.mem_singleton.mp hs' with rfl
        rw [hslen]
        omega
    · intro mk hmk'
      rw [hmk] at hmk'
      rcases List.mem_append.mp hmk' with hmk' | hmk'
      · exact hinv.mlen mk hmk'
      · rcases List.mem_singleton.mp hmk' with rfl
        rw [List.length_map]
        omega
    · intro ds' hds'
      rw [hdone'] at hds'
      rcases Option.some_inj.mp hds' with rfl
      rw [List.length_map]
      omega
    · intro hcon
      rw [hdone'] at hcon
      cases hcon
    · intro ds' hds'
      rw [hdone'] at hds'
      rcases Option.some_inj.mp hds' with rfl
      exact ⟨w, by rw [hw]; exact List.getLast?_concat _, rfl⟩
    · rw [hw, hs]
      simp [hinv.salign]
    · intro _
      rw [hw, hmk]
      simp only [List.length_append, List.length_singleton]
      omega
    · intro k m i hkm hm hES
      rw [hw] at hm
      simp only [List.length_append, List.length_singleton] at hm
      have hkM : k < M := by omega
      have hESk : (acc.word_ids.getD k []).getD i 0 = Vocab.ES := by
        rw [hw, List.getD_append _ _ _ _ hkM] at hES
        exact hES
      by_cases hmM : m < M
      · rcases hinv.sticky k m i hkm hmM hESk with ⟨h1, h2, h3⟩
        refine ⟨?_, ?_, ?_⟩
        · rw [hw, List.getD_append _ _ _ _ hmM]
          exact h1
        · rw [hmk, List.getD_append]
          · exact h2
          · omega
        · rw [hs, List.getD_append]
          · exact h3
          · rw [hinv.salign]
            omega
      · have hmeq : m = M := by omega
        subst hmeq
        have hwlES : wl.getD i 0 = Vocab.ES := by
          by_cases hk1 : k = M - 1
          · rw [← hwlget, ← hk1]
            exact hESk
          · have hk2 : k < M - 1 := by omega
            have hM1 : M - 1 < M := by omega
            rcases hinv.sticky k (M - 1) i (by omega) hM1 hESk with ⟨h1, _, _⟩
            rw [← hwlget]
            exact h1
        have hdsi : ds.getD i false = true := hESds i hwlES
        have hiB : i < B := by
          have hiwl : i < wl.length := by
            by_contra hge
            rw [List.getD_eq_default _ _ (by omega)] at hwlES
            cases hwlES
          omega
        rcases hper i hdsi with ⟨hwi, hsi⟩
        refine ⟨?_, ?_, ?_⟩
        · rw [hw, List.getD_append_right _ _ _ _ (le_refl _)]
          simpa using hwi
        · rw [hmk, List.getD_append_right]
          · have : M - 1 - acc.masks.length = 0 := by omega
            rw [this]
            simp only [List.getD_cons_zero]
            exact hdsmask i hiB hdsi
          · omega
        · rw [hs, List.getD_append_right]
          · rw [hinv.salign]
            simp only [Nat.sub_self, List.getD_cons_zero]
            exact hsi
          · rw [hinv.salign]

theorem greedyLoop_inv [LinearOrderedRing K] (tr : BTranslator K σ α)
    (forced : Option ForcedTrg) :
    ∀ (fuel : Nat) (acc acc' : GreedyAcc K σ α) (B : Nat), GreedyInv acc B →
      greedyLoop tr forced fuel acc = some acc' → ∃ B', GreedyInv acc' B'
  | 0, acc, acc', B, hinv, h => by
    rw [greedyLoop] at h
    rcases Option.some_inj.mp h with rfl
    exact ⟨B, hinv⟩
  | fuel + 1, acc, acc', B, hinv, h => by
    rw [greedyLoop] at h
    cases hstep : greedyStep tr forced acc with
    | none => rw [hstep] at h; cases h
    | some acc1 =>
      rw [hstep] at h
      simp only [Option.bind_eq_bind, Option.some_bind] at h
      rcases greedyStep_inv hinv hstep with ⟨B1, hinv1⟩
      by_cases hd : GreedyAcc.allDone acc1 = true
      · rw [if_pos hd] at h
        rcases Option.some_inj.mp h with rfl
        exact ⟨B1, hinv1⟩
      · rw [if_neg hd] at h
        exact greedyLoop_inv tr forced fuel acc1 acc' B1 hinv1 h

/-- C6: in a greedy run, once batch element `i` records `</s>` at step
`k`, every later recorded step `m` records `</s>` for that element with a
0 mask entry (the mask of step `m` sits at index `m - 1` of the raw mask
list, before the all-ones step-0 mask is prepended by the final packing)
and a per-step score contribution masked to exactly 0. -/
theorem greedy_c6 [LinearOrderedRing K] (gs : GreedySearch)
    (tr : BTranslator K σ α) (init : σ) (forced : Option ForcedTrg)
    (acc : GreedyAcc K σ α) (k m i : Nat)
    (h : greedyLoop tr forced gs.max_len (greedyInit init) = some acc)
    (hkm : k < m) (hm : m < acc.word_ids.length)
    (hES : (acc.word_ids.getD k []).getD i 0 = Vocab.ES) :
    (acc.word_ids.getD m []).getD i 0 = Vocab.ES ∧
    (acc.masks.getD (m - 1) []).getD i 1 = 0 ∧
    (acc.score.getD m []).getD i (1 : K) = 0 := by
  have hinv0 : GreedyInv (greedyInit init : GreedyAcc K σ α) 0 := by
    constructor
    · intro w hw; simp [greedyInit] at hw
    · intro s hs; simp [greedyInit] at hs
    · intro mk hmk; simp [greedyInit] at hmk
    · intro ds hds; simp [greedyInit] at hds
    · intro _; exact ⟨rfl, rfl, rfl⟩
    · intro ds hds; simp [greedyInit] at hds
    · rfl
    · intro hcon; simp [greedyInit] at hcon
    · intro k' m' i' hkm' hm' hES'
      simp [greedyInit] at hm'
  rcases greedyLoop_inv tr forced gs.max_len _ acc 0 hinv0 h with ⟨B, hinv⟩
  exact hinv.sticky k m i hkm hm hES

/-- C6 witness: in the batch-2 run of `c6Tr`, element 0 emits `</s>` at
step 0, and step 1 records `</s>`, a 0 mask entry and a zero score
contribution for it. -/
theorem greedy_c6_witness :
    (c6Acc.word_ids.getD 1 []).getD 0 0 = Vocab.ES ∧
    (c6Acc.masks.getD 0 []).getD 0 1 = 0 ∧
    (c6Acc.score.getD 1 []).getD 0 (1 : ℤ) = 0 :=
  greedy_c6 ⟨5⟩ c6Tr 0 none c6Acc 0 1 0 (by decide) (by decide) (by decide)
    (by decide)

/-- C2: a successful `SamplingSearch.generate_output` returns exactly
`sampleCount` SearchOutputs, in sample-index order: the entry at index
`k` is the `k`-th `sample_one` call, which receives the forced target
only when `k = 0` — every other sample ignores it and samples freely.  In
particular, with `sampleCount = 3` and the forced target `[3, 1]` (one
forced sequence for the single batch element), 3 SearchOutputs are
returned and sample index 0 holds exactly the tokens `[3, 1]`. -/
theorem sampling_c2 :
    (∀ (K σ α : Type) [LinearOrderedRing K] (ss : SamplingSearch)
      (tr : BTranslator K σ α) (init : σ) (f : List (List Word))
      (rng : Nat → Nat → List Word) (outs : List (GreedyOut K σ α)),
      SamplingSearch.generate_output ss tr init (some f) rng = some outs →
      outs.length = ss.sample_size ∧
      (∀ k, k < ss.sample_size → outs.get? k =
        (if k = 0 then SamplingSearch.sample_one ss tr init (some f) (rng k)
         else SamplingSearch.sample_one ss tr init none (rng k)))) ∧
    ((SamplingSearch.generate_output (⟨3, 3⟩ : SamplingSearch) sdemoTr 0
        (some [[3, 1]]) demoRng).map
      (fun l => (l.length,
        l.map (fun (o : GreedyOut ℤ Nat Unit) => o.word_ids)))
      = some (3, [[[3, 1]], [[2, 2, 2]], [[2, 2, 2]]])) := by
  constructor
  · intro K σ α _ ss tr init f rng outs h
    rw [SamplingSearch.generate_output] at h
    constructor
    · rw [mapOpt_length _ h, List.length_range]
    · intro k hk
      have hrg : (List.range ss.sample_size).get? k = some k := by
        rw [List.get?_eq_get (by simpa using hk)]
        simp
      have := mapOpt_get _ h k k hrg
      rw [this]
      by_cases hk0 : k = 0
      · simp [hk0]
      · simp [hk0]
  · decide

/-- C2 witness: the general part applied to the concrete scenario-3 run. -/
theorem sampling_c2_witness :
    c2Outs.length = 3 ∧
    (∀ k, k < 3 → c2Outs.get? k =
      (if k = 0 then SamplingSearch.sample_one (⟨3, 3⟩ : SamplingSearch)
          sdemoTr 0 (some [[3, 1]]) (demoRng k)
       else SamplingSearch.sample_one (⟨3, 3⟩ : SamplingSearch)
          sdemoTr 0 none (demoRng k))) :=
  sampling_c2.1 ℤ Nat Unit ⟨3, 3⟩ sdemoTr 0 [[3, 1]] demoRng c2Outs (by rfl)

/-- C8 witness: the degenerate run of `bdemoTr` (its argmax word 0 never
ends a sequence), finalized from the frontier. -/
theorem beam_c8_witness :
    ∃ outs, beamFinalize noNormZ none true c8Pair.2 = some outs ∧
      BeamSearch.generate_output
        (⟨1, 3, noNormZ, true⟩ : BeamSearch ℤ Nat Unit) bdemoTr 0 none none
        = Except.ok outs ∧
      1 ≤ outs.length :=
  beam_c8 ⟨1, 3, noNormZ, true⟩ bdemoTr 0 none c8Pair.2 (by decide)
    (fun w s => by simp [bdemoTr]) (fun hyps src' => by simp [noNormZ])
    (by decide)

end Xnmt
